import Mathlib

/-!
Verification of the `loopline` model-loading pipeline.

This development gives a shallow embedding of the loader pipeline
(`lib/loader.js`), the model registry (`lib/registry.js`) and the model
attachment step of `lib/line.js`, and proves/refutes the specified
properties about it.

Conventions of the embedding:
* JavaScript values that the pipeline inspects dynamically are embedded as
  the inductive `CVal`; `undefined` is `CVal.vUndefined`.
* Optional string-valued fields are `Option String`; the JS truthy-or
  (`a || b`) on strings is `jsOrD`/`jsOrS` (the empty string is falsy).
* Synchronous filesystem and `require` effects are a read-only environment
  `FSModel`: `require.resolve` throwing is `requireResolve _ = none`,
  `fs.readdirSync` throwing is `readdir _ = none`.
* Thrown JS errors are `Except.error` carrying the message string.
-/

namespace Loopline

/-- A JavaScript value as far as the loader pipeline inspects values
dynamically.  `vDataSource` is a juggler `DataSource` handle (identified by
its name); `vFunc protoIsModelSub` is a function value, with the flag
recording whether `value.prototype instanceof loopline.Model` holds. -/
inductive CVal where
  | vUndefined : CVal
  | vNull : CVal
  | vBool : Bool → CVal
  | vNum : Int → CVal
  | vStr : String → CVal
  | vObj : List (String × CVal) → CVal
  | vArr : List CVal → CVal
  | vDataSource : String → CVal
  | vFunc : Bool → CVal

/-- JS truthiness of a `CVal`. -/
def CVal.truthy : CVal → Bool
  | .vUndefined => false
  | .vNull => false
  | .vBool b => b
  | .vNum n => n != 0
  | .vStr s => s != ""
  | .vObj _ => true
  | .vArr _ => true
  | .vDataSource _ => true
  | .vFunc _ => true

/-- Property read `v[k]` on an object value; `undefined` otherwise. -/
def CVal.getField (v : CVal) (k : String) : CVal :=
  match v with
  | .vObj fields =>
    match fields.lookup k with
    | some w => w
    | none => .vUndefined
  | _ => .vUndefined

/-- Replace-or-append write into an association list, with JS object
semantics: an existing key keeps its position, a new key is appended. -/
def setKey {α : Type} (m : List (String × α)) (k : String) (v : α) :
    List (String × α) :=
  match m with
  | [] => [(k, v)]
  | (k', v') :: rest =>
    if k' = k then (k', v) :: rest else (k', v') :: setKey rest k v

/-- Property write `v[k] = w` on an object value (identity otherwise). -/
def CVal.setField (v : CVal) (k : String) (w : CVal) : CVal :=
  match v with
  | .vObj fields => .vObj (setKey fields k w)
  | _ => v

/-- The fields of a value of JS `typeof` `'object'` (excluding `null`):
plain objects, and arrays viewed through their index keys as `for..in`
and `Object.keys` view them.  `none` for non-objects and `null`. -/
def CVal.objFields : CVal → Option (List (String × CVal))
  | .vObj fields => some fields
  | .vArr elems => some ((elems.enum.map fun p => (toString p.1, p.2)))
  | .vDataSource _ => some []
  | _ => none

/-- JS truthy-or `a || b` for a possibly-absent string (absent and `""` are
falsy). -/
def jsOrD (a : Option String) (b : String) : String :=
  match a with
  | some s => if s = "" then b else s
  | none => b

/-- JS truthy-or `a || b` where both sides may be absent strings. -/
def jsOrS (a : Option String) (b : Option String) : Option String :=
  match a with
  | some s => if s = "" then b else some s
  | none => b

/-! ### String and path helpers

The helpers below are implemented by structural recursion over the
character lists underlying `String`, so that concrete pipeline runs
compute.  They model Node's `path` module on already-normalized inputs
(no `.`/`..` segment folding, which the loader never relies on). -/

/-- Split a character list at a separator character (accumulator-based
structural recursion; the behavior of `String.splitOn` with a
one-character separator). -/
def splitCharAux (sep : Char) : List Char → List Char → List (List Char)
  | [], cur => [cur.reverse]
  | c :: rest, cur =>
    if c = sep then cur.reverse :: splitCharAux sep rest []
    else splitCharAux sep rest (c :: cur)

/-- Split a character list at a separator character. -/
def splitChar (sep : Char) (l : List Char) : List (List Char) :=
  splitCharAux sep l []

/-- `String.startsWith` via the underlying character lists. -/
def strStartsWith (s pre : String) : Bool :=
  pre.data.isPrefixOf s.data

/-- `String.endsWith` via the underlying character lists. -/
def strEndsWith (s suf : String) : Bool :=
  suf.data.isSuffixOf s.data

/-- `String.take` via the underlying character lists. -/
def strTake (s : String) (n : Nat) : String :=
  String.mk (s.data.take n)

/-- `String.drop` via the underlying character lists. -/
def strDrop (s : String) (n : Nat) : String :=
  String.mk (s.data.drop n)

/-- `String.dropRight` via the underlying character lists. -/
def strDropRight (s : String) (n : Nat) : String :=
  String.mk (s.data.take (s.data.length - n))

/-- `String.toLower` via the underlying character lists. -/
def strToLower (s : String) : String :=
  String.mk (s.data.map Char.toLower)

/-- `String.intercalate` via structural recursion. -/
def strJoinSep (sep : String) (parts : List String) : String :=
  match parts with
  | [] => ""
  | p :: rest => rest.foldl (fun acc q => acc ++ sep ++ q) p

/-- The part of `p` after the final `'/'`: Node `path.basename(p)`. -/
def pathBasename (p : String) : String :=
  match (splitChar '/' p.data).getLast? with
  | some b => String.mk b
  | none => p

/-- Node `path.basename(p, ext)`: the basename with a trailing `ext`
stripped when it is a proper suffix. -/
def pathBasenameExt (p ext : String) : String :=
  let b := pathBasename p
  if b ≠ ext ∧ ext ≠ "" ∧ strEndsWith b ext then strDropRight b ext.data.length
  else b

/-- Node `path.extname(p)`: the suffix of the basename from its last dot,
`""` when there is no dot or the basename starts with its only dot. -/
def pathExtname (p : String) : String :=
  let parts := splitChar '.' (pathBasename p).data
  match parts.length with
  | 0 => ""
  | 1 => ""
  | n + 2 =>
    if parts.headD [] = [] ∧ n = 0 then ""
    else "." ++ String.mk (parts.getLastD [])

/-- Node `path.dirname(p)`: everything before the final `'/'`. -/
def pathDirname (p : String) : String :=
  let parts := splitChar '/' p.data
  match parts with
  | [] => "."
  | [_] => "."
  | _ => strJoinSep "/" (parts.dropLast.map String.mk)

/-- Node `path.resolve(a, b)` on normalized inputs: `b` when absolute,
otherwise `a ++ "/" ++ b` (with a leading `./` of `b` folded away, as
Node's normalization does). -/
def pathResolve (a b : String) : String :=
  if strStartsWith b "/" then b
  else a ++ "/" ++ (if strStartsWith b "./" then strDrop b 2 else b)

/-- Node `path.join(a, b)` on normalized inputs. -/
def pathJoin (a b : String) : String :=
  a ++ "/" ++ b

/-! ### lodash string helpers

Models of the external lodash functions the scanner calls, following
lodash's documented behavior for ASCII identifier-like inputs: `words`
splits at non-alphanumeric characters and at a lower-case/digit to
upper-case boundary. -/

/-- Split into words the way lodash `_.words` does for ASCII inputs
(separator characters and lower→upper case transitions break words). -/
def lodashWords (s : String) : List String :=
  let step := fun (acc : List (List Char) × List Char) (c : Char) =>
    let (done, cur) := acc
    if !c.isAlphanum then
      (if cur = [] then done else done ++ [cur], [])
    else if cur ≠ [] ∧ (cur.getLast?.elim false fun l => l.isLower ∨ l.isDigit)
        ∧ c.isUpper then
      (done ++ [cur], [c])
    else
      (done, cur ++ [c])
  let (done, cur) := s.toList.foldl step ([], [])
  ((if cur = [] then done else done ++ [cur]).map fun w => String.mk w)

/-- lodash `_.upperFirst`. -/
def lodashUpperFirst (s : String) : String :=
  match s.toList with
  | [] => ""
  | c :: rest => String.mk (c.toUpper :: rest)

/-- lodash `_.capitalize`: first character upper-cased, the remaining
characters lower-cased. -/
def lodashCapitalize (s : String) : String :=
  lodashUpperFirst (strToLower s)

/-- lodash `_.camelCase`: words lower-cased, the first as-is and the rest
with their first character upper-cased, concatenated. -/
def lodashCamelCase (s : String) : String :=
  match lodashWords s with
  | [] => ""
  | w :: ws =>
    strToLower w ++
      String.join (ws.map fun x => lodashUpperFirst (strToLower x))

/-! ### Model definitions and the scanner (`lib/loader.js`) -/

/-- The `options` sub-object of a model definition; the `base`/`super`
entries are the ones the pipeline inspects, the rest are carried opaquely. -/
structure DefOptions where
  base : Option String
  sup : Option String
  other : List (String × CVal)

/-- A parsed model-definition JSON (`ModelDefinition`): the keys the
pipeline inspects are explicit, the rest are carried opaquely. -/
structure ModelDefinition where
  name : Option String
  properties : Option CVal
  base : Option String
  sup : Option String
  options : Option DefOptions
  other : List (String × CVal)

/-- A scanner result: a definition paired with the optional resolved
customization-script path (`SourceEntry` of the spec). -/
structure ModelEntry where
  definition : ModelDefinition
  sourceFile : Option String

/-- The read-only environment for the loader's synchronous filesystem and
module-loading calls.  A `none` from `readdir` or `requireResolve` models
the underlying call throwing (always caught at its use sites). -/
structure FSModel where
  existsSync : String → Bool
  readdir : String → Option (List String)
  statIsFile : String → Bool
  requireResolve : String → Option String
  loadJson : String → ModelDefinition
  requireVal : String → CVal
  requireExtensions : List String
  globalPaths : List String
  nodeModulePaths : String → List String

/-- `tryReadDir`: `fs.readdirSync`, with failures downgraded to `[]`. -/
def tryReadDir (fs : FSModel) (dir : String) : List String :=
  (fs.readdir dir).getD []

/-- `getExcludedExtensions`: the keys of the exclusion map. -/
def getExcludedExtensions : List String :=
  [".json", ".node"]

/-- `isPreferredExtension`: the file extension is registered with
`require.extensions` and is not an excluded one. -/
def isPreferredExtension (fs : FSModel) (filename : String) : Bool :=
  let ext := pathExtname filename
  fs.requireExtensions.contains ext && !(getExcludedExtensions.contains ext)

/-- `fixFileExtension`: locate, among `files`, a sibling of `filepath`
with the same base name and a non-excluded (and, when
`onlyScriptsExportingFunction`, loadable) extension. -/
def fixFileExtension (fs : FSModel) (filepath : String) (files : List String)
    (onlyScriptsExportingFunction : Bool) : Option String :=
  if isPreferredExtension fs filepath then some filepath
  else
    let basename := pathBasenameExt filepath ".json"
    let sourceDir := pathDirname filepath
    let results := files.foldl
      (fun acc f =>
        let otherFile := pathResolve sourceDir f
        if fs.statIsFile otherFile then
          let otherExt := pathExtname f
          if !(getExcludedExtensions.contains otherExt)
              && pathBasenameExt f otherExt = basename then
            if !onlyScriptsExportingFunction then acc ++ [otherFile]
            else if onlyScriptsExportingFunction
                && fs.requireExtensions.contains otherExt then
              acc ++ [otherFile]
            else acc
          else acc
        else acc)
      []
    results.head?

/-- `loadModelDefinition`: parse a schema file, default a missing or empty
`name` from the pascal-cased basename, and locate the customization
script. -/
def loadModelDefinition (fs : FSModel) (jsonFile : String)
    (allFiles : List String) : ModelEntry :=
  let definition := fs.loadJson jsonFile
  let basename := pathBasenameExt jsonFile (pathExtname jsonFile)
  let definition :=
    { definition with
      name := some (jsOrD definition.name
        (lodashCapitalize (lodashCamelCase basename))) }
  let sourceFile := fixFileExtension fs jsonFile allFiles true
  { definition := definition, sourceFile := sourceFile }

/-- The options of `tryResolveAppPath`.  `fullResolve` is compared with
`=== false` in the source, hence the `Option Bool`. -/
structure ResolveOptions where
  strict : Bool := true
  fullResolve : Option Bool := none

/-- A candidate from the module-search phase of `tryResolveAppPath`: the
resolved path, plus the pre-resolution path when `require.resolve`
succeeded. -/
structure ResolveCandidate where
  path : String
  unresolvedPath : Option String

/-- `tryResolveAppPath`: resolve a path expression against the root
directory and the module search paths; `none` (never an error) when
nothing resolves. -/
def tryResolveAppPath (fs : FSModel) (rootDir relativePath : String)
    (ropts : ResolveOptions) : Option String :=
  let start := strTake relativePath 2
  let (fullPath?, isModuleRelative) :=
    if strStartsWith relativePath "/" then (some relativePath, false)
    else if start = "./" ∨ start = ".." then
      (some (pathResolve rootDir relativePath), false)
    else if !ropts.strict then (some (pathResolve rootDir relativePath), true)
    else (none, false)
  let phase1 : Option (Option String) :=
    match fullPath? with
    | none => none
    | some fullPath =>
      if fs.existsSync fullPath then some (some fullPath)
      else
        match fs.requireResolve fullPath with
        | some r => some (some r)
        | none => if !isModuleRelative then some none else none
  match phase1 with
  | some r => r
  | none =>
    let modulePaths := fs.globalPaths ++ fs.nodeModulePaths rootDir
    let candidates := modulePaths.map fun candidateDir =>
      let absPath := pathJoin candidateDir relativePath
      match fs.requireResolve absPath with
      | some fp =>
        ({ path := fp, unresolvedPath := some absPath } : ResolveCandidate)
      | none => { path := absPath, unresolvedPath := none }
    match (candidates.filter fun c => fs.existsSync c.path).head? with
    | some c =>
      match c.unresolvedPath with
      | some up => if ropts.fullResolve = some false then some up else some c.path
      | none => some c.path
    | none => none

/-- One source directory of the `findModelDefinitions` scan: resolve the
directory (skipping it when unresolvable), list it, and register every
kept `*.json` definition. -/
def findModelDefinitionsSource (fs : FSModel) (rootDir : String)
    (registry : List (String × ModelEntry)) (src : String) :
    List (String × ModelEntry) :=
  match tryResolveAppPath fs rootDir src { strict := false } with
  | none => registry
  | some srcDir =>
    let files := tryReadDir fs srcDir
    (files.filter fun f => strTake f 1 ≠ "_" ∧ pathExtname f = ".json").foldl
      (fun reg f =>
        let fullPath := pathResolve srcDir f
        let entry := loadModelDefinition fs fullPath files
        match entry.definition.name with
        | some n => if n = "" then reg else setKey reg n entry
        | none => reg)
      registry

/-- `findModelDefinitions`: scan each source directory for `*.json`
definition files (skipping `_`-prefixed names), last writer wins per
model name; unresolvable sources are skipped. -/
def findModelDefinitions (fs : FSModel) (rootDir : String)
    (sources : List String) : List (String × ModelEntry) :=
  sources.foldl (findModelDefinitionsSource fs rootDir) []

/-- `verifyModelDefinitions`: build the registry from the caller's
explicit `modelDefinitions` list instead of scanning; `none` when the
list is absent or empty. -/
def verifyModelDefinitions (fs : FSModel) (rootDir : String)
    (modelDefinitions : Option (List ModelEntry)) :
    Option (List (String × ModelEntry)) :=
  match modelDefinitions with
  | none => none
  | some defs =>
    if defs.length < 1 then none
    else
      some (defs.foldl
        (fun registry d =>
          let d :=
            match d.sourceFile with
            | some sf =>
              if sf = "" then d
              else
                let fullPath := pathResolve rootDir sf
                { d with
                  sourceFile := fixFileExtension fs fullPath
                    (tryReadDir fs (pathDirname fullPath)) true }
            | none => d
          match d.definition.name with
          | some n => if n = "" then registry else setKey registry n d
          | none => registry)
        [])

/-! ### Dependency graph building and ordering -/

/-- `getBaseModelName`:
`modelDefinition.base || modelDefinition.options && modelDefinition.options.base`
(for string-valued base references; a missing definition gives
`undefined`). -/
def getBaseModelName (modelDefinition : Option ModelDefinition) :
    Option String :=
  match modelDefinition with
  | none => none
  | some d => jsOrS d.base (d.options.bind fun o => o.base)

/-- The work-queue loop of `addAllBaseModels`.  The fuel argument only
bounds the iteration for Lean's sake; the wrapper passes enough fuel that
the bound is never reached (see the membership lemmas below, which prove
their conclusions under an explicit fuel-sufficiency hypothesis). -/
def addAllBaseModelsAux (registry : List (String × ModelEntry)) :
    Nat → List String → List String → List String → List String
  | 0, _, _, result => result
  | _ + 1, [], _, result => result
  | fuel + 1, name :: rest, visited, result =>
    if name ∈ visited then
      addAllBaseModelsAux registry fuel rest visited result
    else
      let visited' := name :: visited
      let result' := result ++ [name]
      match registry.lookup name with
      | none => addAllBaseModelsAux registry fuel rest visited' result'
      | some entry =>
        match getBaseModelName (some entry.definition) with
        | none => addAllBaseModelsAux registry fuel rest visited' result'
        | some base =>
          if (registry.lookup base).isSome then
            addAllBaseModelsAux registry fuel (rest ++ [base]) visited' result'
          else
            addAllBaseModelsAux registry fuel rest visited' result'

/-- `addAllBaseModels`: expand the requested model names with every
transitively referenced base that has a registry definition, keeping
first-visit order. -/
def addAllBaseModels (registry : List (String × ModelEntry))
    (modelNames : List String) : List String :=
  addAllBaseModelsAux registry
    (2 * (modelNames.length + registry.length) + modelNames.length + 1)
    modelNames [] []

/-- A node of the inheritance graph: a model-name string or JS
`undefined` (the base slot of an instruction without a base). -/
abbrev Node := Option String

/-- One step of the node collection of `uniqueNodes`: append the two
endpoints of an edge when not already present. -/
def uniqueNodesStep (acc : List Node) (e : Node × Node) : List Node :=
  let acc1 := if e.1 ∈ acc then acc else acc ++ [e.1]
  if e.2 ∈ acc1 then acc1 else acc1 ++ [e.2]

/-- Modelled from the spec: the external `toposort` dependency's node
collection — the distinct endpoints of the edge list, in first-appearance
order. -/
def uniqueNodes (edges : List (Node × Node)) : List Node :=
  edges.foldl uniqueNodesStep []

/-- A node has an incoming edge from the still-unsorted nodes. -/
def hasIncoming (edges : List (Node × Node)) (remaining : List Node)
    (n : Node) : Bool :=
  edges.any fun e => decide (e.2 = n ∧ e.1 ∈ remaining)

/-- Modelled from the spec: the external `toposort` dependency, as the
spec describes it — a standard topological sort over the edge set that
raises an error on a cycle, with implementation-defined tie-breaking.
Kahn-style: repeatedly emit a node without incoming edges from the
remaining set.  The fuel is always sufficient (`length remaining`) and
exists only for Lean's termination checking. -/
def toposortAux (edges : List (Node × Node)) :
    Nat → List Node → Except String (List Node)
  | _, [] => .ok []
  | 0, _ :: _ => .error "Cyclic dependency"
  | fuel + 1, a :: rest =>
    match (a :: rest).find? (fun n => !hasIncoming edges (a :: rest) n) with
    | none => .error "Cyclic dependency"
    | some n => (toposortAux edges fuel ((a :: rest).erase n)).map (n :: ·)

/-- Modelled from the spec: the external `toposort` entry point. -/
def toposort (edges : List (Node × Node)) : Except String (List Node) :=
  toposortAux edges (uniqueNodes edges).length (uniqueNodes edges)

/-- A `ModelInstruction`: the unit consumed in dependency order.
`config` is the raw JS value from the caller's `models` map (or the
synthesized default-datasource object), `vUndefined` when absent. -/
structure ModelInstruction where
  name : String
  config : CVal
  definition : Option ModelDefinition
  sourceFile : Option String

/-- The `instructionsByModelName` object of `sortByInheritance`. -/
def instructionsByModelName (instructions : List ModelInstruction) :
    List (String × ModelInstruction) :=
  instructions.foldl (fun m inst => setKey m inst.name inst) []

/-- Lookup of a sorted node in `instructionsByModelName`; the `undefined`
node never names an instruction. -/
def lookupInstruction (instructions : List ModelInstruction) (n : Node) :
    Option ModelInstruction :=
  match n with
  | some s => (instructionsByModelName instructions).lookup s
  | none => none

/-- The edge list `Base name -> Model name` of `sortByInheritance`. -/
def inheritanceEdges (instructions : List ModelInstruction) :
    List (Node × Node) :=
  instructions.map fun inst => (getBaseModelName inst.definition, some inst.name)

/-- `sortByInheritance`: topologically sort instructions along base
edges, dropping sorted names that carry no instruction (built-in bases). -/
def sortByInheritance (instructions : List ModelInstruction) :
    Except String (List ModelInstruction) :=
  (toposort (inheritanceEdges instructions)).map fun sortedNames =>
    sortedNames.filterMap (lookupInstruction instructions)

/-- The `createModelInstructions` closure of `buildAllModelInstructions`:
per-name config (explicit map entry, else the default-datasource object)
plus the registry definition when one exists. -/
def createModelInstructions (registry : List (String × ModelEntry))
    (modelsConfig : Option (List (String × CVal))) (dataSouce : Option String)
    (name : String) : ModelInstruction :=
  let config : CVal :=
    match modelsConfig with
    | some mc =>
      match mc.lookup name with
      | some c => c
      | none => .vUndefined
    | none =>
      .vObj [("dataSource",
        match dataSouce with
        | some s => .vStr s
        | none => .vUndefined)]
  let entry? := registry.lookup name
  { name := name
    config := config
    definition := entry?.map (·.definition)
    sourceFile := entry?.bind (·.sourceFile) }

/-- The registry `buildAllModelInstructions` works from:
`verifyModelDefinitions(...) || findModelDefinitions(...)` (an empty
verified registry object is still truthy; only an absent/empty
`modelDefinitions` list falls back to scanning). -/
def effectiveRegistry (fs : FSModel) (rootDir : String)
    (sources : List String) (modelDefinitions : Option (List ModelEntry)) :
    List (String × ModelEntry) :=
  match verifyModelDefinitions fs rootDir modelDefinitions with
  | some r => r
  | none => findModelDefinitions fs rootDir sources

/-- `buildAllModelInstructions`: registry (explicit definitions or
directory scan), base-model expansion, instruction assembly, and
inheritance ordering. -/
def buildAllModelInstructions (fs : FSModel) (rootDir : String)
    (sources : List String) (modelDefinitions : Option (List ModelEntry))
    (modelsConfig : Option (List (String × CVal))) (dataSouce : Option String) :
    Except String (List ModelInstruction) :=
  let registry := effectiveRegistry fs rootDir sources modelDefinitions
  let initialNames :=
    match modelsConfig with
    | some mc => mc.map Prod.fst
    | none => registry.map Prod.fst
  let modelNamesToBuild := addAllBaseModels registry initialNames
  let instructions :=
    modelNamesToBuild.map (createModelInstructions registry modelsConfig dataSouce)
  sortByInheritance instructions

/-- A caller-declared mixin: `{name, sourceFile}`. -/
structure MixinDecl where
  name : String
  sourceFile : String

/-- The options object of the load entry point.  Every key the pipeline
ever reads is present; `dataSource` (correct spelling) appears exactly
because the spec claims it is honored. -/
structure LoadOptions where
  root : Option String := none
  dataSource : Option String := none
  dataSouce : Option String := none
  sources : Option (List String) := none
  models : Option (List (String × CVal)) := none
  modelDefinitions : Option (List ModelEntry) := none
  mixins : Option (List MixinDecl) := none

/-- `loadModelInstructions`: source list defaulting plus
`buildAllModelInstructions`. -/
def loadModelInstructions (fs : FSModel) (root : String)
    (options : LoadOptions) : Except String (List ModelInstruction) :=
  let sources := options.sources.getD ["./models"]
  buildAllModelInstructions fs root sources options.modelDefinitions
    options.models options.dataSouce

/-! ### The registry (`lib/registry.js`) and model materialization -/

/-- A live model class handle: its name and its juggler `settings`
object.  The class body/prototype is outside what the pipeline inspects. -/
structure ModelHandle where
  modelName : String
  settings : List (String × CVal)

/-- The registry state the pipeline reads and writes: the model map of
its model builder (`modelBuilder.models`). -/
structure Registry where
  models : List (String × ModelHandle)

/-- `Registry.prototype.findModel` (for the string-argument case the
pipeline uses). -/
def Registry.findModel (r : Registry) (name : String) : Option ModelHandle :=
  r.models.lookup name

/-- `Registry.prototype.getModel`: like `findModel` but throwing
`Model not found: <name>` when no such model exists. -/
def Registry.getModel (r : Registry) (name : String) :
    Except String ModelHandle :=
  match r.findModel name with
  | some m => .ok m
  | none => .error ("Model not found: " ++ name)

/-- `buildModelOptionsFromConfig`: clone `config.options` and copy in the
non-special top-level config keys that the options do not already
define (`config.options` wins on conflicts). -/
def buildModelOptionsFromConfig (config : ModelDefinition) : DefOptions :=
  let opts := config.options.getD { base := none, sup := none, other := [] }
  { base := match opts.base with | some b => some b | none => config.base
    sup := match opts.sup with | some s => some s | none => config.sup
    other := config.other.foldl
      (fun acc kv =>
        if (acc.lookup kv.1).isSome then acc else acc ++ [kv])
      opts.other }

/-- `Registry.prototype.createModel` (single-argument config variant, the
one `defineModels` uses): resolve the base-model reference, then extend
it into a fresh model class registered in the model builder. -/
def Registry.createModel (r : Registry) (config : ModelDefinition) :
    Except String (ModelHandle × Registry) := do
  let options := buildModelOptionsFromConfig config
  let name ←
    match config.name with
    | some n => pure n
    | none => .error "The model-config property `name` must be a string"
  let baseModel? ←
    match jsOrS options.base options.sup with
    | some baseName =>
      match r.findModel baseName with
      | some bm => pure (some bm)
      | none =>
        Except.error ("Model not found: model `" ++ name ++
          "` is extending an unknown model `" ++ baseName ++ "`.")
    | none => pure none
  let _baseModel ←
    match baseModel? with
    | some bm => pure bm
    | none => r.getModel "PersistedModel"
  let model : ModelHandle := { modelName := name, settings := [] }
  pure (model, { models := setKey r.models name model })

/-- JS strict equality `===` restricted to the primitive values ACL
entries carry (distinct object references compare unequal, which the
value embedding renders as `false` for structured values). -/
def cvalStrictEq (a b : CVal) : Bool :=
  match a, b with
  | .vUndefined, .vUndefined => true
  | .vNull, .vNull => true
  | .vBool x, .vBool y => x == y
  | .vNum x, .vNum y => x == y
  | .vStr x, .vStr y => x == y
  | .vDataSource x, .vDataSource y => x == y
  | _, _ => false

/-- `addACL`: replace the first entry matching on the
`{property, accessType, principalType, principalId}` tuple, else append. -/
def addACL (acls : List CVal) (acl : CVal) : List CVal :=
  match acls with
  | [] => [acl]
  | a :: rest =>
    if cvalStrictEq (a.getField "property") (acl.getField "property")
        && cvalStrictEq (a.getField "accessType") (acl.getField "accessType")
        && cvalStrictEq (a.getField "principalType") (acl.getField "principalType")
        && cvalStrictEq (a.getField "principalId") (acl.getField "principalId")
    then acl :: rest
    else a :: addACL rest acl

/-- `util._extend(origin, add)`: shallow-copy `add`'s own keys onto
`origin` when `add` is a non-null object, else return `origin`. -/
def extendObj (origin add : CVal) : CVal :=
  match add.objFields with
  | some fields => fields.foldl (fun acc kv => acc.setField kv.1 kv.2) origin
  | none => origin

/-- JS loose equality with `null` (`x != null` is false exactly for
`null` and `undefined`). -/
def looselyNull : CVal → Bool
  | .vNull => true
  | .vUndefined => true
  | _ => false

/-- The structural keys `configureModel` refuses to take from the
`options` channel. -/
def excludedSettingKeys : List String :=
  ["base", "super", "relations", "acls", "dataSource"]

/-- Stringification for values appearing inside error messages. -/
def cvalDisplay : CVal → String
  | .vUndefined => "undefined"
  | .vNull => "null"
  | .vBool b => if b then "true" else "false"
  | .vNum n => toString n
  | .vStr s => s
  | .vObj _ => "[object Object]"
  | .vArr _ => "[object Object]"
  | .vDataSource _ => "[object Object]"
  | .vFunc _ => "[object Function]"

/-- One `options` key of the settings merge in `configureModel`: copy the
value into the settings, unless the key is structural, which is warned
about and ignored. -/
def settingsMergeStep (modelName : String)
    (acc : List (String × CVal) × List String) (kv : String × CVal) :
    List (String × CVal) × List String :=
  if excludedSettingKeys.contains kv.1 then
    (acc.1, acc.2 ++ ["Property `" ++ kv.1 ++
      "` cannot be reconfigured for `" ++ modelName ++ "`"])
  else (setKey acc.1 kv.1 kv.2, acc.2)

/-- `Registry.prototype.configureModel`: merge relations, merge ACLs,
merge settings (rejecting structural keys), then conditionally attach the
datasource.  Returns the updated model, the `console.warn` messages in
emission order, and the name of the datasource attached to (if any). -/
def registryConfigureModel (ModelCtor : ModelHandle) (config : CVal) :
    Except String (ModelHandle × List String × Option String) :=
  let settings0 := ModelCtor.settings
  let modelName := ModelCtor.modelName
  -- Relations
  let cfgRelations := config.getField "relations"
  let step1 :=
    match cfgRelations.objFields with
    | some relFields =>
      let existing :=
        match settings0.lookup "relations" with
        | some r => if r.truthy then r else .vObj []
        | none => CVal.vObj []
      let merged := relFields.foldl
        (fun (rel : CVal) (kv : String × CVal) =>
          let cur := rel.getField kv.1
          let cur := if cur.truthy then cur else CVal.vObj []
          rel.setField kv.1 (extendObj cur kv.2))
        existing
      (setKey settings0 "relations" merged, ([] : List String))
    | none =>
      if looselyNull cfgRelations then (settings0, [])
      else (settings0, ["The relations property of `" ++ modelName ++
        "` configuration must be an object"])
  -- ACLs
  let cfgAcls := config.getField "acls"
  let step2 :=
    match cfgAcls with
    | .vArr newAcls =>
      let existing :=
        match (step1.1).lookup "acls" with
        | some (CVal.vArr a) => a
        | _ => []
      (setKey step1.1 "acls" (.vArr (newAcls.foldl addACL existing)),
        ([] : List String))
    | _ =>
      if looselyNull cfgAcls then (step1.1, [])
      else (step1.1, ["The acls property of `" ++ modelName ++
        "` configuration must be an array of objects"])
  -- Settings
  let cfgOptions := config.getField "options"
  let step3 :=
    match cfgOptions.objFields with
    | some optFields =>
      optFields.foldl (settingsMergeStep modelName) (step2.1, ([] : List String))
    | none =>
      if looselyNull cfgOptions then (step2.1, [])
      else (step2.1, ["The options property of `" ++ modelName ++
        "` configuration must be an object"])
  -- Datasource attachment, after the configuration updates
  let cfgDataSource := config.getField "dataSource"
  let model' : ModelHandle := { ModelCtor with settings := step3.1 }
  if cfgDataSource.truthy then
    match cfgDataSource with
    | .vDataSource dsName =>
      .ok (model', step1.2 ++ step2.2 ++ step3.2, some dsName)
    | _ =>
      .error ("Cannot configure " ++ modelName ++
        ": config.dataSource must be an instance of DataSource")
  else
    match cfgDataSource with
    | .vNull => .ok (model', step1.2 ++ step2.2 ++ step3.2, none)
    | .vBool false => .ok (model', step1.2 ++ step2.2 ++ step3.2, none)
    | _ =>
      .ok (model', step1.2 ++ step2.2 ++ step3.2 ++
        ["The configuration of `" ++ modelName ++
          "` is missing `dataSource` property.\n" ++
          "Use `null` or `false` to mark models not attached to any data source."],
        none)

/-- The slice of a `Line` application the pipeline touches:
`line.registry`, whether `modelBuilder.mixins` is present, and the
`line.dataSources` map (a datasource handle is identified by name). -/
structure LineT where
  registry : Registry
  modelBuilderHasMixins : Bool
  dataSources : List (String × String)

/-- The `configureModel` helper of `lib/line.js`: resolve a string
`dataSource` against `line.dataSources` (assert it resolves to a real
handle), then delegate to the registry's `configureModel`. -/
def lineConfigureModel (line : LineT) (ModelCtor : ModelHandle)
    (config : CVal) : Except String (ModelHandle × List String × Option String) :=
  let dataSource := config.getField "dataSource"
  let resolved :=
    if dataSource.truthy then
      match dataSource with
      | .vStr s =>
        match line.dataSources.lookup s with
        | some ds => CVal.vDataSource ds
        | none => CVal.vUndefined
      | v => v
    else dataSource
  let isDS : Bool := match resolved with | .vDataSource _ => true | _ => false
  if dataSource.truthy && !isDS then
    .error (ModelCtor.modelName ++
      " is referencing a dataSource that does not exist: \"" ++
      cvalDisplay dataSource ++ "\"")
  else
    registryConfigureModel ModelCtor (config.setField "dataSource" resolved)

/-! ### The materializer and the load entry point (`lib/loader.js`) -/

/-- The instruction bundle `setupModels` consumes: the loader entry
always builds it as `{models: ...}`, leaving `mixins` absent. -/
structure Instructions where
  models : List ModelInstruction
  mixins : Option (List MixinDecl) := none

/-- JS `typeof v === 'function'`. -/
def CVal.isFunction : CVal → Bool
  | .vFunc _ => true
  | _ => false

/-- `v.prototype instanceof loopline.Model`: the flag a function value
carries; structured non-function values do not have a model-class
prototype in this embedding. -/
def CVal.protoInstanceOfModel : CVal → Bool
  | .vFunc b => b
  | _ => false

/-- The acceptance test of `defineMixins`:
`typeof mixin === 'function' || mixin.prototype instanceof BaseClass`. -/
def mixinAccepted (v : CVal) : Bool :=
  v.isFunction || v.protoInstanceOfModel

/-- `defineMixins`: load each declared mixin and register the accepted
ones by name on the shared model builder; returns the
`modelBuilder.mixins.define` calls in order. -/
def defineMixins (fs : FSModel) (line : LineT) (instructions : Instructions) :
    List (String × CVal) :=
  let mixins := instructions.mixins.getD []
  if !line.modelBuilderHasMixins || mixins.isEmpty then []
  else
    mixins.foldl
      (fun acc obj =>
        let mixin := fs.requireVal obj.sourceFile
        if mixinAccepted mixin then acc ++ [(obj.name, mixin)] else acc)
      []

/-- The state `defineModels` leaves behind: the updated registry, each
instruction paired with its `_model`, and the customization scripts that
were invoked. -/
structure DefineModelsResult where
  registry : Registry
  pairs : List (ModelInstruction × ModelHandle)
  customized : List String

/-- `defineModels`: for an instruction without a definition, look the
model up via `registry.getModel` (which itself throws
`Model not found: <name>` on a miss, making the subsequent
`Cannot configure unknown model` guard unreachable — a returned model is
never falsy); otherwise create the model and invoke its customization
script when that exports a function. -/
def defineModels (fs : FSModel) (registry : Registry)
    (instructions : List ModelInstruction) : Except String DefineModelsResult :=
  instructions.foldlM
    (fun st data => do
      match data.definition with
      | none => do
        let model ← st.registry.getModel data.name
        pure { st with pairs := st.pairs ++ [(data, model)] }
      | some defn => do
        let (model, registry') ← st.registry.createModel defn
        let hasSrc : Bool := match data.sourceFile with
          | some sf => sf != ""
          | none => false
        let customized :=
          if hasSrc && (fs.requireVal (data.sourceFile.getD "")).isFunction then
            st.customized ++ [data.sourceFile.getD ""]
          else st.customized
        pure { registry := registry'
               pairs := st.pairs ++ [(data, model)]
               customized := customized })
    { registry := registry, pairs := [], customized := [] }

/-- Everything `setupModels` did: the mixin registrations, the
instruction/model pairs, the `line.model(model, config)` calls that were
made (instructions with a falsy config are skipped), and each call's
configuration outcome. -/
structure SetupResult where
  registry : Registry
  mixinDefines : List (String × CVal)
  pairs : List (ModelInstruction × ModelHandle)
  modelCalls : List (ModelHandle × CVal)
  configured : List (ModelHandle × List String × Option String)

/-- `setupModels`: the mixin pass, the model pass, then the attach loop
`if (!data.config) return; line.model(data._model, data.config)`. -/
def setupModels (fs : FSModel) (line : LineT) (instructions : Instructions) :
    Except String SetupResult := do
  let mixinDefines := defineMixins fs line instructions
  let dm ← defineModels fs line.registry instructions.models
  let calls := (dm.pairs.filter fun p => p.1.config.truthy).map
    fun p => (p.2, p.1.config)
  let configured ← calls.mapM fun c => lineConfigureModel line c.1 c.2
  pure { registry := dm.registry
         mixinDefines := mixinDefines
         pairs := dm.pairs
         modelCalls := calls
         configured := configured }

/-- The polymorphic `root` argument of `load(line, root, options)`. -/
inductive RootArg where
  | str : String → RootArg
  | obj : LoadOptions → RootArg
  | null : RootArg

/-- The observable outcome of a successful load call. -/
structure LoadResult where
  instructions : List ModelInstruction
  setup : SetupResult

/-- The load entry point (`module.exports` of `lib/loader.js`).  Returns
the caller's options object in its post-call (mutated) state, together
with the pipeline outcome. -/
def loadEntry (fs : FSModel) (line : LineT) (rootArg : RootArg)
    (optionsArg : Option LoadOptions) (cwd : String) :
    LoadOptions × Except String LoadResult :=
  let (rootArg, optionsArg) :=
    match rootArg with
    | .str s => (RootArg.null, some ({ (optionsArg.getD {}) with root := some s }))
    | r => (r, optionsArg)
  let options :=
    match optionsArg with
    | some o => o
    | none =>
      match rootArg with
      | .obj o => o
      | _ => {}
  let rootStr := jsOrD options.root cwd
  let options :=
    { options with
      root := some rootStr
      dataSouce := some (jsOrD options.dataSouce "default") }
  (options,
    do
      let instrs ← loadModelInstructions fs rootStr options
      let setup ← setupModels fs line { models := instrs }
      pure { instructions := instrs, setup := setup })

/-! ### Generic list lemmas -/

theorem lookup_mem {α β : Type} [BEq α] [LawfulBEq α] {l : List (α × β)}
    {k : α} {b : β} (h : l.lookup k = some b) : (k, b) ∈ l := by
  rcases List.lookup_eq_some_iff.mp h with ⟨l₁, l₂, rfl, -⟩
  simp

theorem setKey_lookup_self {α : Type} (m : List (String × α)) (k : String)
    (v : α) : (setKey m k v).lookup k = some v := by
  induction m with
  | nil => simp [setKey, List.lookup]
  | cons p rest ih =>
    by_cases h : p.1 = k
    · simp [setKey, h, List.lookup]
    · simp only [setKey]
      rw [if_neg h]
      simpa [List.lookup, show (k == p.1) = false by simpa using Ne.symm h]
        using ih

theorem setKey_lookup_ne {α : Type} (m : List (String × α)) (k k' : String)
    (v : α) (h : k' ≠ k) : (setKey m k v).lookup k' = m.lookup k' := by
  induction m with
  | nil => simp [setKey, List.lookup, show (k' == k) = false by simpa using h]
  | cons p rest ih =>
    by_cases hp : p.1 = k
    · subst hp
      simp [setKey, List.lookup, show (k' == p.1) = false by simpa using h]
    · simp only [setKey]
      rw [if_neg hp]
      by_cases hk' : k' = p.1
      · simp [List.lookup, hk']
      · simpa [List.lookup, show (k' == p.1) = false by simpa using hk']
          using ih

theorem setKey_mem {α : Type} {m : List (String × α)} {k : String} {v : α}
    {p : String × α} (h : p ∈ setKey m k v) : p ∈ m ∨ p = (k, v) := by
  induction m with
  | nil => simp [setKey] at h; simp [h]
  | cons q rest ih =>
    simp only [setKey] at h
    by_cases hq : q.1 = k
    · rw [if_pos hq] at h
      rcases List.mem_cons.mp h with h | h
      · right; rw [h, hq]
      · left; exact List.mem_cons_of_mem _ h
    · rw [if_neg hq] at h
      rcases List.mem_cons.mp h with h | h
      · left; simp [h]
      · rcases ih h with h | h
        · left; exact List.mem_cons_of_mem _ h
        · right; exact h

theorem setKey_keys {α : Type} (m : List (String × α)) (k : String) (v : α) :
    (setKey m k v).map Prod.fst =
      if k ∈ m.map Prod.fst then m.map Prod.fst else m.map Prod.fst ++ [k] := by
  induction m with
  | nil => simp [setKey]
  | cons p rest ih =>
    by_cases hp : p.1 = k
    · simp [setKey, hp]
    · simp only [setKey]
      rw [if_neg hp]
      by_cases hk : k ∈ rest.map Prod.fst
      · simp [ih, hk, Ne.symm hp]
      · simp [ih, hk, Ne.symm hp]

theorem setKey_keys_nodup {α : Type} {m : List (String × α)} {k : String}
    {v : α} (h : (m.map Prod.fst).Nodup) :
    ((setKey m k v).map Prod.fst).Nodup := by
  rw [setKey_keys]
  by_cases hk : k ∈ m.map Prod.fst
  · simpa [hk]
  · rw [if_neg hk]
    simp [List.nodup_append, h, hk]

theorem indexOf_cons_self_beq {α : Type} [BEq α] [LawfulBEq α] (a : α)
    (l : List α) : (a :: l).indexOf a = 0 := by
  simp [List.indexOf, List.findIdx_cons]

theorem indexOf_cons_ne_beq {α : Type} [BEq α] [LawfulBEq α] {a b : α}
    (l : List α) (h : b ≠ a) : (b :: l).indexOf a = l.indexOf a + 1 := by
  simp [List.indexOf, List.findIdx_cons, show (b == a) = false by simpa using h]

theorem sublist_pair_indexOf_lt {α : Type} [BEq α] [LawfulBEq α] :
    ∀ {l : List α} {a b : α}, l.Nodup → List.Sublist [a, b] l →
      l.indexOf a < l.indexOf b := by
  intro l
  induction l with
  | nil => intro a b _ h; simp at h
  | cons c t ih =>
    intro a b hnd hs
    cases hs with
    | cons _ hs' =>
      have ha : a ∈ t := hs'.subset (by simp)
      have hb : b ∈ t := hs'.subset (by simp)
      have hca : c ≠ a := by rintro rfl; exact (List.nodup_cons.mp hnd).1 ha
      have hcb : c ≠ b := by rintro rfl; exact (List.nodup_cons.mp hnd).1 hb
      rw [indexOf_cons_ne_beq _ hca, indexOf_cons_ne_beq _ hcb]
      exact Nat.succ_lt_succ (ih (List.nodup_cons.mp hnd).2 hs')
    | cons₂ _ hs' =>
      have hb : b ∈ t := List.singleton_sublist.mp hs'
      have hab : c ≠ b := by rintro rfl; exact (List.nodup_cons.mp hnd).1 hb
      rw [indexOf_cons_self_beq, indexOf_cons_ne_beq _ hab]
      exact Nat.succ_pos _

theorem chain_getLastD_lt {α : Type} {R : α → α → Prop} {f : α → Nat}
    (H : ∀ x y, R x y → f x < f y) :
    ∀ (l : List α) (x : α), l ≠ [] → List.Chain R x l →
      f x < f (l.getLastD x) := by
  intro l
  induction l with
  | nil => intro x h; exact absurd rfl h
  | cons y l' ih =>
    intro x _ hch
    rw [List.chain_cons] at hch
    rw [List.getLastD_cons]
    cases l' with
    | nil => simpa using H _ _ hch.1
    | cons z l'' => exact Nat.lt_trans (H _ _ hch.1) (ih y (by simp) hch.2)

/-! ### Toposort lemmas -/

theorem toposortAux_mem {edges : List (Node × Node)} :
    ∀ (fuel : Nat) (remaining out : List Node),
      remaining.length ≤ fuel →
      toposortAux edges fuel remaining = .ok out →
      ∀ x ∈ remaining, x ∈ out := by
  intro fuel
  induction fuel with
  | zero =>
    intro remaining out hlen _ x hx
    cases remaining with
    | nil => cases hx
    | cons a r => simp at hlen
  | succ f ih =>
    intro remaining out hlen hok x hx
    cases remaining with
    | nil => cases hx
    | cons a rest =>
      rw [toposortAux] at hok
      cases hfind : (a :: rest).find?
          (fun n => !hasIncoming edges (a :: rest) n) with
      | none => rw [hfind] at hok; cases hok
      | some n =>
        rw [hfind] at hok
        dsimp only at hok
        cases hrec : toposortAux edges f ((a :: rest).erase n) with
        | error e => rw [hrec] at hok; cases hok
        | ok out' =>
          rw [hrec] at hok
          simp only [Except.map] at hok
          cases hok
          have hnmem : n ∈ a :: rest := List.mem_of_find?_eq_some hfind
          by_cases hxn : x = n
          · simp [hxn]
          · have hx' : x ∈ (a :: rest).erase n :=
              (List.mem_erase_of_ne hxn).mpr hx
            have hlen' : ((a :: rest).erase n).length ≤ f := by
              rw [List.length_erase_of_mem hnmem]
              simp only [List.length_cons] at hlen ⊢
              omega
            exact List.mem_cons_of_mem _ (ih _ _ hlen' hrec x hx')

theorem toposortAux_subset {edges : List (Node × Node)} :
    ∀ (fuel : Nat) (remaining out : List Node),
      toposortAux edges fuel remaining = .ok out →
      ∀ x ∈ out, x ∈ remaining := by
  intro fuel
  induction fuel with
  | zero =>
    intro remaining out hok x hx
    cases remaining with
    | nil => cases hok; cases hx
    | cons a r => rw [toposortAux] at hok; cases hok
  | succ f ih =>
    intro remaining out hok x hx
    cases remaining with
    | nil => cases hok; cases hx
    | cons a rest =>
      rw [toposortAux] at hok
      cases hfind : (a :: rest).find?
          (fun n => !hasIncoming edges (a :: rest) n) with
      | none => rw [hfind] at hok; cases hok
      | some n =>
        rw [hfind] at hok
        dsimp only at hok
        cases hrec : toposortAux edges f ((a :: rest).erase n) with
        | error e => rw [hrec] at hok; cases hok
        | ok out' =>
          rw [hrec] at hok
          simp only [Except.map] at hok
          cases hok
          rcases List.mem_cons.mp hx with rfl | hx'
          · exact List.mem_of_find?_eq_some hfind
          · exact (List.erase_sublist _ _).subset (ih _ _ hrec x hx')

theorem toposortAux_nodup {edges : List (Node × Node)} :
    ∀ (fuel : Nat) (remaining out : List Node),
      remaining.Nodup →
      toposortAux edges fuel remaining = .ok out →
      out.Nodup := by
  intro fuel
  induction fuel with
  | zero =>
    intro remaining out _ hok
    cases remaining with
    | nil => cases hok; simp
    | cons a r => rw [toposortAux] at hok; cases hok
  | succ f ih =>
    intro remaining out hnd hok
    cases remaining with
    | nil => cases hok; simp
    | cons a rest =>
      rw [toposortAux] at hok
      cases hfind : (a :: rest).find?
          (fun n => !hasIncoming edges (a :: rest) n) with
      | none => rw [hfind] at hok; cases hok
      | some n =>
        rw [hfind] at hok
        dsimp only at hok
        cases hrec : toposortAux edges f ((a :: rest).erase n) with
        | error e => rw [hrec] at hok; cases hok
        | ok out' =>
          rw [hrec] at hok
          simp only [Except.map] at hok
          cases hok
          have hout' : out'.Nodup := ih _ _ (hnd.erase n) hrec
          refine List.nodup_cons.mpr ⟨fun hmem => ?_, hout'⟩
          have : n ∈ (a :: rest).erase n := toposortAux_subset _ _ _ hrec n hmem
          exact ((hnd.mem_erase_iff.mp this).1 rfl)

theorem not_hasIncoming_iff {edges : List (Node × Node)}
    {remaining : List Node} {n : Node} :
    hasIncoming edges remaining n = false ↔
      ∀ e ∈ edges, ¬(e.2 = n ∧ e.1 ∈ remaining) := by
  simp [hasIncoming]

theorem toposortAux_edge_sublist {edges : List (Node × Node)} :
    ∀ (fuel : Nat) (remaining out : List Node) (a b : Node),
      remaining.length ≤ fuel →
      toposortAux edges fuel remaining = .ok out →
      (a, b) ∈ edges → a ∈ remaining → b ∈ remaining →
      List.Sublist [a, b] out := by
  intro fuel
  induction fuel with
  | zero =>
    intro remaining out a b hlen _ _ ha _
    cases remaining with
    | nil => cases ha
    | cons x r => simp at hlen
  | succ f ih =>
    intro remaining out a b hlen hok hedge ha hb
    cases remaining with
    | nil => cases ha
    | cons r rest =>
      rw [toposortAux] at hok
      cases hfind : (r :: rest).find?
          (fun n => !hasIncoming edges (r :: rest) n) with
      | none => rw [hfind] at hok; cases hok
      | some n =>
        rw [hfind] at hok
        dsimp only at hok
        cases hrec : toposortAux edges f ((r :: rest).erase n) with
        | error e => rw [hrec] at hok; cases hok
        | ok out' =>
          rw [hrec] at hok
          simp only [Except.map] at hok
          cases hok
          have hnmem : n ∈ r :: rest := List.mem_of_find?_eq_some hfind
          have helig : hasIncoming edges (r :: rest) n = false := by
            have := List.find?_some hfind
            simpa using this
          have hlen' : ((r :: rest).erase n).length ≤ f := by
            rw [List.length_erase_of_mem hnmem]
            simp only [List.length_cons] at hlen ⊢
            omega
          have hbn : b ≠ n := by
            rintro rfl
            exact (not_hasIncoming_iff.mp helig) (a, b) hedge ⟨rfl, ha⟩
          have hb' : b ∈ (r :: rest).erase n := (List.mem_erase_of_ne hbn).mpr hb
          by_cases han : a = n
          · subst han
            have : b ∈ out' := toposortAux_mem _ _ _ hlen' hrec b hb'
            exact (List.singleton_sublist.mpr this).cons₂ a
          · have ha' : a ∈ (r :: rest).erase n :=
              (List.mem_erase_of_ne han).mpr ha
            exact (ih _ _ _ _ hlen' hrec hedge ha' hb').cons n

/-! ### uniqueNodes lemmas and toposort wrappers -/

theorem uniqueNodesStep_subset (acc : List Node) (e : Node × Node) :
    acc ⊆ uniqueNodesStep acc e := by
  intro x hx
  simp only [uniqueNodesStep]
  split <;> split <;> simp [hx]

theorem mem_ite_append_self (x : Node) (l : List Node) :
    x ∈ (if x ∈ l then l else l ++ [x]) := by
  split <;> simp_all

theorem mem_ite_append_of_mem {x : Node} {l : List Node} (h : x ∈ l)
    (c : Prop) [Decidable c] (y : Node) : x ∈ (if c then l else l ++ [y]) := by
  split <;> simp [h]

theorem uniqueNodesStep_mem (acc : List Node) (e : Node × Node) :
    e.1 ∈ uniqueNodesStep acc e ∧ e.2 ∈ uniqueNodesStep acc e := by
  simp only [uniqueNodesStep]
  exact ⟨mem_ite_append_of_mem (mem_ite_append_self e.1 acc) _ e.2,
         mem_ite_append_self e.2 _⟩

theorem nodup_ite_append {l : List Node} (h : l.Nodup) (x : Node) :
    (if x ∈ l then l else l ++ [x]).Nodup := by
  split
  · exact h
  · next hx => simp [List.nodup_append, h, hx]

theorem uniqueNodesStep_nodup {acc : List Node} (h : acc.Nodup)
    (e : Node × Node) : (uniqueNodesStep acc e).Nodup := by
  simp only [uniqueNodesStep]
  exact nodup_ite_append (nodup_ite_append h e.1) e.2

theorem uniqueNodes_foldl_subset (edges : List (Node × Node)) :
    ∀ acc : List Node, acc ⊆ edges.foldl uniqueNodesStep acc := by
  induction edges with
  | nil => intro acc; simp
  | cons e rest ih =>
    intro acc x hx
    exact ih (uniqueNodesStep acc e) (uniqueNodesStep_subset acc e hx)

theorem mem_uniqueNodes_of_edge {edges : List (Node × Node)} {a b : Node}
    (h : (a, b) ∈ edges) :
    a ∈ uniqueNodes edges ∧ b ∈ uniqueNodes edges := by
  unfold uniqueNodes
  suffices H : ∀ acc, (a, b) ∈ edges →
      a ∈ edges.foldl uniqueNodesStep acc ∧
      b ∈ edges.foldl uniqueNodesStep acc from H [] h
  clear h
  induction edges with
  | nil => intro acc h; cases h
  | cons e rest ih =>
    intro acc h
    rcases List.mem_cons.mp h with rfl | h
    · have := uniqueNodesStep_mem acc (a, b)
      exact ⟨uniqueNodes_foldl_subset rest _ this.1,
             uniqueNodes_foldl_subset rest _ this.2⟩
    · exact ih _ h

theorem uniqueNodes_nodup (edges : List (Node × Node)) :
    (uniqueNodes edges).Nodup := by
  unfold uniqueNodes
  suffices H : ∀ acc : List Node, acc.Nodup →
      (edges.foldl uniqueNodesStep acc).Nodup from H [] (by simp)
  induction edges with
  | nil => intro acc h; simpa
  | cons e rest ih => intro acc h; exact ih _ (uniqueNodesStep_nodup h e)

theorem toposort_ok_edge_sublist {edges : List (Node × Node)}
    {out : List Node} {a b : Node} (hok : toposort edges = .ok out)
    (hedge : (a, b) ∈ edges) : List.Sublist [a, b] out := by
  have hmem := mem_uniqueNodes_of_edge hedge
  exact toposortAux_edge_sublist _ _ _ a b le_rfl hok hedge hmem.1 hmem.2

theorem toposort_ok_nodup {edges : List (Node × Node)} {out : List Node}
    (hok : toposort edges = .ok out) : out.Nodup :=
  toposortAux_nodup _ _ _ (uniqueNodes_nodup edges) hok

theorem toposort_ok_mem {edges : List (Node × Node)} {out : List Node}
    {x : Node} (hok : toposort edges = .ok out) (hx : x ∈ uniqueNodes edges) :
    x ∈ out :=
  toposortAux_mem _ _ _ le_rfl hok x hx

theorem toposort_error_of_cycle {edges : List (Node × Node)} {c : Node}
    {l : List Node}
    (hchain : List.Chain (fun x y => (x, y) ∈ edges) c (l ++ [c])) :
    ∃ e, toposort edges = .error e := by
  cases htp : toposort edges with
  | error e => exact ⟨e, rfl⟩
  | ok out =>
    exfalso
    have hnd : out.Nodup := toposort_ok_nodup htp
    have H : ∀ x y, (fun x y => (x, y) ∈ edges) x y →
        out.indexOf x < out.indexOf y := by
      intro x y hxy
      exact sublist_pair_indexOf_lt hnd (toposort_ok_edge_sublist htp hxy)
    have hlt := chain_getLastD_lt H (l ++ [c]) c (by simp) hchain
    rw [List.getLastD_concat] at hlt
    exact Nat.lt_irrefl _ hlt

/-! ### addAllBaseModels lemmas -/

/-- The number of domain entries not yet visited: the decreasing part of
the work-queue measure. -/
def unvisitedCount (D visited : List String) : Nat :=
  (D.filter (fun d => decide (d ∉ visited))).length

theorem unvisitedCount_cons {D : List String} {name : String}
    (visited : List String) (hD : D.Nodup) (hmem : name ∈ D)
    (hnv : name ∉ visited) :
    unvisitedCount D (name :: visited) + 1 = unvisitedCount D visited := by
  induction D with
  | nil => cases hmem
  | cons d D' ih =>
    rcases List.nodup_cons.mp hD with ⟨hdD', hD'⟩
    by_cases hd : d = name
    · subst hd
      have hfe : List.filter (fun x => decide (x ∉ d :: visited)) D' =
          List.filter (fun x => decide (x ∉ visited)) D' := by
        apply List.filter_congr
        intro x hx
        have hxd : x ≠ d := fun h => hdD' (h ▸ hx)
        simp [hxd]
      unfold unvisitedCount
      rw [List.filter_cons, List.filter_cons]
      rw [decide_eq_false (show ¬(d ∉ d :: visited) by simp)]
      rw [decide_eq_true (show d ∉ visited from hnv)]
      rw [hfe]
      simp
    · have hmem2 : name ∈ D' := by
        rcases List.mem_cons.mp hmem with h | h
        · exact absurd h.symm hd
        · exact h
      have hrec := ih hD' hmem2
      unfold unvisitedCount at hrec ⊢
      rw [List.filter_cons, List.filter_cons]
      by_cases hdv : d ∈ visited
      · rw [decide_eq_false (show ¬(d ∉ name :: visited) by simp [hdv])]
        rw [decide_eq_false (show ¬(d ∉ visited) by simpa using hdv)]
        simpa using hrec
      · rw [decide_eq_true (show d ∉ name :: visited by simp [hdv, hd])]
        rw [decide_eq_true (show d ∉ visited from hdv)]
        simp only [if_true, List.length_cons]
        omega

theorem addAllBaseModelsAux_mono (registry : List (String × ModelEntry)) :
    ∀ (fuel : Nat) (queue visited result : List String),
      ∀ x ∈ result, x ∈ addAllBaseModelsAux registry fuel queue visited result := by
  intro fuel
  induction fuel with
  | zero => intro queue visited result x hx; exact hx
  | succ f ih =>
    intro queue visited result x hx
    cases queue with
    | nil => exact hx
    | cons name rest =>
      rw [addAllBaseModelsAux]
      by_cases hv : name ∈ visited
      · rw [if_pos hv]; exact ih _ _ _ x hx
      · rw [if_neg hv]
        dsimp only
        have hx' : x ∈ result ++ [name] := List.mem_append_left _ hx
        cases registry.lookup name with
        | none => exact ih _ _ _ x hx'
        | some entry =>
          dsimp only
          cases getBaseModelName (some entry.definition) with
          | none => exact ih _ _ _ x hx'
          | some base =>
            dsimp only
            by_cases hb : (registry.lookup base).isSome
            · rw [if_pos hb]; exact ih _ _ _ x hx'
            · rw [if_neg hb]; exact ih _ _ _ x hx'

theorem addAllBaseModelsAux_mem (registry : List (String × ModelEntry))
    (D : List String) (hD : D.Nodup)
    (hR : ∀ k ∈ registry.map Prod.fst, k ∈ D) :
    ∀ (fuel : Nat) (queue visited result : List String),
      (∀ x ∈ queue, x ∈ D) →
      (∀ v ∈ visited, v ∈ result) →
      2 * unvisitedCount D visited + queue.length < fuel →
      ∀ x, (x ∈ queue ∨ x ∈ result) →
        x ∈ addAllBaseModelsAux registry fuel queue visited result := by
  intro fuel
  induction fuel with
  | zero =>
    intro queue visited result _ _ hfuel x _
    omega
  | succ f ih =>
    intro queue visited result hQ hvr hfuel x hx
    cases queue with
    | nil =>
      rcases hx with hx | hx
      · cases hx
      · exact hx
    | cons name rest =>
      rw [addAllBaseModelsAux]
      by_cases hv : name ∈ visited
      · rw [if_pos hv]
        have hfuel' : 2 * unvisitedCount D visited + rest.length < f := by
          simp only [List.length_cons] at hfuel; omega
        refine ih rest visited result (fun y hy => hQ y (List.mem_cons_of_mem _ hy))
          hvr hfuel' x ?_
        rcases hx with hx | hx
        · rcases List.mem_cons.mp hx with rfl | hx
          · exact Or.inr (hvr _ hv)
          · exact Or.inl hx
        · exact Or.inr hx
      · rw [if_neg hv]
        have hnameD : name ∈ D := hQ name (List.mem_cons_self name rest)
        have hcnt := unvisitedCount_cons visited hD hnameD hv
        have hvr' : ∀ v ∈ name :: visited, v ∈ result ++ [name] := by
          intro v hvmem
          rcases List.mem_cons.mp hvmem with rfl | hvmem
          · simp
          · exact List.mem_append_left _ (hvr _ hvmem)
        have hx' : x ∈ rest ∨ x ∈ result ++ [name] := by
          rcases hx with hx | hx
          · rcases List.mem_cons.mp hx with rfl | hx
            · exact Or.inr (by simp)
            · exact Or.inl hx
          · exact Or.inr (List.mem_append_left _ hx)
        have hQrest : ∀ y ∈ rest, y ∈ D := fun y hy =>
          hQ y (List.mem_cons_of_mem _ hy)
        dsimp only
        cases hlu : registry.lookup name with
        | none =>
          refine ih rest (name :: visited) (result ++ [name]) hQrest hvr' ?_ x hx'
          simp only [List.length_cons] at hfuel; omega
        | some entry =>
          dsimp only
          cases getBaseModelName (some entry.definition) with
          | none =>
            refine ih rest (name :: visited) (result ++ [name]) hQrest hvr' ?_ x hx'
            simp only [List.length_cons] at hfuel; omega
          | some base =>
            dsimp only
            by_cases hb : (registry.lookup base).isSome
            · rw [if_pos hb]
              have hbD : base ∈ D := by
                rcases Option.isSome_iff_exists.mp hb with ⟨e, he⟩
                exact hR base (List.mem_map_of_mem Prod.fst (lookup_mem he))
              refine ih (rest ++ [base]) (name :: visited) (result ++ [name])
                (fun y hy => ?_) hvr' ?_ x ?_
              · rcases List.mem_append.mp hy with hy | hy
                · exact hQrest y hy
                · simp only [List.mem_singleton] at hy; exact hy ▸ hbD
              · simp only [List.length_append, List.length_cons,
                  List.length_nil] at hfuel ⊢
                omega
              · rcases hx' with hx' | hx'
                · exact Or.inl (List.mem_append_left _ hx')
                · exact Or.inr hx'
            · rw [if_neg hb]
              refine ih rest (name :: visited) (result ++ [name]) hQrest hvr' ?_ x hx'
              simp only [List.length_cons] at hfuel; omega

theorem addAllBaseModels_mem (registry : List (String × ModelEntry))
    (modelNames : List String) :
    ∀ x ∈ modelNames, x ∈ addAllBaseModels registry modelNames := by
  intro x hx
  have hsub : ((modelNames ++ registry.map Prod.fst).dedup).length ≤
      modelNames.length + registry.length := by
    have h1 := List.Sublist.length_le (List.dedup_sublist
      (modelNames ++ registry.map Prod.fst))
    simpa using h1
  refine addAllBaseModelsAux_mem registry
    ((modelNames ++ registry.map Prod.fst).dedup)
    (List.nodup_dedup _)
    (fun k hk => List.mem_dedup.mpr (List.mem_append_right _ hk))
    _ modelNames [] []
    (fun y hy => List.mem_dedup.mpr (List.mem_append_left _ hy))
    (by simp)
    ?_ x (Or.inl hx)
  have hcnt : unvisitedCount ((modelNames ++ registry.map Prod.fst).dedup) [] ≤
      modelNames.length + registry.length := by
    calc unvisitedCount ((modelNames ++ registry.map Prod.fst).dedup) []
        ≤ ((modelNames ++ registry.map Prod.fst).dedup).length :=
          List.length_filter_le _ _
      _ ≤ _ := hsub
  omega

theorem addAllBaseModelsAux_nodup (registry : List (String × ModelEntry)) :
    ∀ (fuel : Nat) (queue visited result : List String),
      result.Nodup → (∀ r ∈ result, r ∈ visited) →
      (addAllBaseModelsAux registry fuel queue visited result).Nodup := by
  intro fuel
  induction fuel with
  | zero => intro _ _ _ hnd _; exact hnd
  | succ f ih =>
    intro queue visited result hnd hrv
    cases queue with
    | nil => exact hnd
    | cons name rest =>
      rw [addAllBaseModelsAux]
      by_cases hv : name ∈ visited
      · rw [if_pos hv]; exact ih _ _ _ hnd hrv
      · rw [if_neg hv]
        have hnr : name ∉ result := fun h => hv (hrv _ h)
        have hnd' : (result ++ [name]).Nodup := by
          simp [List.nodup_append, hnd, hnr]
        have hrv' : ∀ r ∈ result ++ [name], r ∈ name :: visited := by
          intro r hr
          rcases List.mem_append.mp hr with hr | hr
          · exact List.mem_cons_of_mem _ (hrv _ hr)
          · simp only [List.mem_singleton] at hr; simp [hr]
        dsimp only
        cases registry.lookup name with
        | none => exact ih _ _ _ hnd' hrv'
        | some entry =>
          dsimp only
          cases getBaseModelName (some entry.definition) with
          | none => exact ih _ _ _ hnd' hrv'
          | some base =>
            dsimp only
            by_cases hb : (registry.lookup base).isSome
            · rw [if_pos hb]; exact ih _ _ _ hnd' hrv'
            · rw [if_neg hb]; exact ih _ _ _ hnd' hrv'

theorem addAllBaseModels_nodup (registry : List (String × ModelEntry))
    (modelNames : List String) :
    (addAllBaseModels registry modelNames).Nodup :=
  addAllBaseModelsAux_nodup registry _ modelNames [] [] (by simp) (by simp)

/-! ### Instruction-map and sort lemmas -/

theorem setKey_append {α : Type} (m : List (String × α)) (k : String) (v : α)
    (h : ∀ p ∈ m, p.1 ≠ k) : setKey m k v = m ++ [(k, v)] := by
  induction m with
  | nil => simp [setKey]
  | cons q rest ih =>
    have hq : q.1 ≠ k := h q (by simp)
    simp only [setKey]
    rw [if_neg hq]
    simp [ih (fun p hp => h p (List.mem_cons_of_mem _ hp))]

theorem instructionsByModelName_entries :
    ∀ (insts : List ModelInstruction) (acc : List (String × ModelInstruction))
      (p : String × ModelInstruction),
      p ∈ insts.foldl (fun m inst => setKey m inst.name inst) acc →
      p ∈ acc ∨ ∃ inst ∈ insts, p = (inst.name, inst) := by
  intro insts
  induction insts with
  | nil => intro acc p hp; exact Or.inl hp
  | cons i rest ih =>
    intro acc p hp
    simp only [List.foldl_cons] at hp
    rcases ih _ p hp with hacc | ⟨inst, hmem, heq⟩
    · rcases setKey_mem hacc with h | h
      · exact Or.inl h
      · exact Or.inr ⟨i, by simp, h⟩
    · exact Or.inr ⟨inst, List.mem_cons_of_mem _ hmem, heq⟩

theorem instructionsByModelName_lookup_sound
    {instructions : List ModelInstruction} {s : String}
    {i : ModelInstruction}
    (h : (instructionsByModelName instructions).lookup s = some i) :
    i ∈ instructions ∧ i.name = s := by
  rcases instructionsByModelName_entries instructions [] _ (lookup_mem h) with
    h' | ⟨inst, hmem, heq⟩
  · cases h'
  · rcases Prod.mk.injEq .. ▸ heq with ⟨h1, h2⟩
    subst h2
    exact ⟨hmem, h1.symm⟩

theorem instructionsByModelName_eq_map :
    ∀ (insts : List ModelInstruction) (acc : List (String × ModelInstruction)),
      (insts.map (·.name)).Nodup →
      (∀ p ∈ acc, ∀ i ∈ insts, p.1 ≠ i.name) →
      insts.foldl (fun m inst => setKey m inst.name inst) acc =
        acc ++ insts.map (fun i => (i.name, i)) := by
  intro insts
  induction insts with
  | nil => intro acc _ _; simp
  | cons i rest ih =>
    intro acc hnd hdisj
    simp only [List.foldl_cons]
    have h1 : setKey acc i.name i = acc ++ [(i.name, i)] :=
      setKey_append _ _ _ (fun p hp => hdisj p hp i (by simp))
    rw [h1]
    rw [List.map_cons] at hnd
    have hnd' := List.nodup_cons.mp hnd
    rw [ih (acc ++ [(i.name, i)]) hnd'.2 ?_]
    · simp
    · intro p hp j hj
      rcases List.mem_append.mp hp with hp | hp
      · exact hdisj p hp j (List.mem_cons_of_mem _ hj)
      · simp only [List.mem_singleton] at hp
        subst hp
        intro hcontra
        have hc : i.name = j.name := hcontra
        exact hnd'.1 (hc ▸ List.mem_map_of_mem (·.name) hj)

theorem lookup_map_pairing :
    ∀ (insts : List ModelInstruction), (insts.map (·.name)).Nodup →
      ∀ i ∈ insts,
        (insts.map (fun j => (j.name, j))).lookup i.name = some i := by
  intro insts
  induction insts with
  | nil => intro _ i hi; cases hi
  | cons j rest ih =>
    intro hnd i hi
    rw [List.map_cons] at hnd
    have hnd' := List.nodup_cons.mp hnd
    simp only [List.map_cons]
    by_cases hij : i.name = j.name
    · have hijeq : i = j := by
        rcases List.mem_cons.mp hi with rfl | hmem
        · rfl
        · exact absurd (hij ▸ List.mem_map_of_mem (·.name) hmem) hnd'.1
      subst hijeq
      simp [List.lookup]
    · have hmem : i ∈ rest := by
        rcases List.mem_cons.mp hi with rfl | hmem
        · exact absurd rfl hij
        · exact hmem
      rw [List.lookup_cons]
      simp only [show (i.name == j.name) = false by simpa using hij]
      exact ih hnd'.2 i hmem

theorem instructionsByModelName_lookup_self
    {insts : List ModelInstruction} (hnd : (insts.map (·.name)).Nodup)
    {i : ModelInstruction} (hi : i ∈ insts) :
    (instructionsByModelName insts).lookup i.name = some i := by
  unfold instructionsByModelName
  rw [instructionsByModelName_eq_map insts [] hnd (by simp)]
  simpa using lookup_map_pairing insts hnd i hi

theorem lookupInstruction_name {insts : List ModelInstruction} {n : Node}
    {i : ModelInstruction} (h : lookupInstruction insts n = some i) :
    n = some i.name ∧ i ∈ insts := by
  unfold lookupInstruction at h
  cases n with
  | none => cases h
  | some s =>
    rcases instructionsByModelName_lookup_sound h with ⟨hmem, hname⟩
    exact ⟨by rw [hname], hmem⟩

theorem sortByInheritance_ok_sorted {instructions out : List ModelInstruction}
    (hok : sortByInheritance instructions = .ok out) :
    ∃ sorted, toposort (inheritanceEdges instructions) = .ok sorted ∧
      out = sorted.filterMap (lookupInstruction instructions) := by
  unfold sortByInheritance at hok
  cases htp : toposort (inheritanceEdges instructions) with
  | error e => rw [htp] at hok; cases hok
  | ok sorted =>
    rw [htp] at hok
    simp only [Except.map] at hok
    cases hok
    exact ⟨sorted, rfl, rfl⟩

theorem sortByInheritance_ok_subset {instructions out : List ModelInstruction}
    (hok : sortByInheritance instructions = .ok out) :
    ∀ i ∈ out, i ∈ instructions := by
  rcases sortByInheritance_ok_sorted hok with ⟨sorted, _, rfl⟩
  intro i hi
  rcases List.mem_filterMap.mp hi with ⟨n, _, hlook⟩
  exact (lookupInstruction_name hlook).2

theorem sortByInheritance_ok_before {instructions out : List ModelInstruction}
    (hnd : (instructions.map (·.name)).Nodup)
    (hok : sortByInheritance instructions = .ok out)
    {iA iB : ModelInstruction} (hA : iA ∈ instructions)
    (hB : iB ∈ instructions)
    (hbase : getBaseModelName iB.definition = some iA.name) :
    List.Sublist [iA, iB] out := by
  rcases sortByInheritance_ok_sorted hok with ⟨sorted, htp, rfl⟩
  have hedge : (some iA.name, some iB.name) ∈ inheritanceEdges instructions := by
    unfold inheritanceEdges
    exact List.mem_map.mpr ⟨iB, hB, by rw [hbase]⟩
  have hsub := toposort_ok_edge_sublist htp hedge
  have h2 := List.Sublist.filterMap (lookupInstruction instructions) hsub
  have hlookA : lookupInstruction instructions (some iA.name) = some iA := by
    unfold lookupInstruction
    exact instructionsByModelName_lookup_self hnd hA
  have hlookB : lookupInstruction instructions (some iB.name) = some iB := by
    unfold lookupInstruction
    exact instructionsByModelName_lookup_self hnd hB
  rwa [show List.filterMap (lookupInstruction instructions)
      [some iA.name, some iB.name] = [iA, iB] by
    simp [List.filterMap_cons, hlookA, hlookB]] at h2

theorem sortByInheritance_ok_names_nodup
    {instructions out : List ModelInstruction}
    (hok : sortByInheritance instructions = .ok out) :
    (out.map (·.name)).Nodup := by
  rcases sortByInheritance_ok_sorted hok with ⟨sorted, htp, rfl⟩
  have hnodup : sorted.Nodup := toposort_ok_nodup htp
  rw [List.map_filterMap]
  refine List.Nodup.filterMap ?_ hnodup
  intro n n' s hs hs'
  rcases Option.map_eq_some'.mp (Option.mem_def.mp hs) with ⟨i, hi, hname⟩
  rcases Option.map_eq_some'.mp (Option.mem_def.mp hs') with ⟨i', hi', hname'⟩
  rw [(lookupInstruction_name hi).1, (lookupInstruction_name hi').1,
    hname, hname']

/-! ### Registry key uniqueness -/

theorem foldl_preserve {α β : Type} (P : β → Prop) (step : β → α → β)
    (hstep : ∀ b a, P b → P (step b a)) :
    ∀ (l : List α) (b : β), P b → P (l.foldl step b) := by
  intro l
  induction l with
  | nil => intro b hb; exact hb
  | cons a rest ih => intro b hb; exact ih _ (hstep b a hb)

theorem findModelDefinitions_keys_nodup (fs : FSModel) (rootDir : String)
    (sources : List String) :
    ((findModelDefinitions fs rootDir sources).map Prod.fst).Nodup := by
  unfold findModelDefinitions
  apply foldl_preserve
    (fun reg : List (String × ModelEntry) => (reg.map Prod.fst).Nodup)
  case a => simp
  intro reg src hreg
  unfold findModelDefinitionsSource
  cases tryResolveAppPath fs rootDir src { strict := false } with
  | none => exact hreg
  | some srcDir =>
    dsimp only
    apply foldl_preserve
      (fun reg : List (String × ModelEntry) => (reg.map Prod.fst).Nodup)
    case a => exact hreg
    intro reg2 f hreg2
    dsimp only
    cases (loadModelDefinition fs (pathResolve srcDir f)
        (tryReadDir fs srcDir)).definition.name with
    | none => exact hreg2
    | some n =>
      dsimp only
      by_cases hn : n = ""
      · rw [if_pos hn]; exact hreg2
      · rw [if_neg hn]; exact setKey_keys_nodup hreg2

theorem effectiveRegistry_keys_nodup (fs : FSModel) (rootDir : String)
    (sources : List String) (modelDefinitions : Option (List ModelEntry)) :
    ((effectiveRegistry fs rootDir sources modelDefinitions).map
      Prod.fst).Nodup := by
  unfold effectiveRegistry
  cases modelDefinitions with
  | none =>
    simp only [verifyModelDefinitions]
    exact findModelDefinitions_keys_nodup fs rootDir sources
  | some defs =>
    simp only [verifyModelDefinitions]
    by_cases hlen : defs.length < 1
    · rw [if_pos hlen]
      exact findModelDefinitions_keys_nodup fs rootDir sources
    · rw [if_neg hlen]
      dsimp only
      apply foldl_preserve
        (fun reg : List (String × ModelEntry) => (reg.map Prod.fst).Nodup)
      · intro reg d hreg
        dsimp only
        cases hname : (match d.sourceFile with
            | some sf =>
              if sf = "" then d
              else
                { d with
                  sourceFile := fixFileExtension fs (pathResolve rootDir sf)
                    (tryReadDir fs (pathDirname (pathResolve rootDir sf))) true }
            | none => d).definition.name with
        | none => exact hreg
        | some n =>
          dsimp only
          by_cases hn : n = ""
          · rw [if_pos hn]; exact hreg
          · rw [if_neg hn]; exact setKey_keys_nodup hreg
      · simp

theorem createModelInstructions_name
    (registry : List (String × ModelEntry))
    (mc : Option (List (String × CVal))) (ds : Option String) (name : String) :
    (createModelInstructions registry mc ds name).name = name := rfl

theorem instructions_names (registry : List (String × ModelEntry))
    (mc : Option (List (String × CVal))) (ds : Option String)
    (names : List String) :
    ((names.map (createModelInstructions registry mc ds)).map (·.name)) =
      names := by
  rw [List.map_map]
  rw [show ((fun i : ModelInstruction => i.name) ∘
      createModelInstructions registry mc ds) = id from funext fun n => rfl]
  exact List.map_id names

/-! ### C1 and C2: inheritance ordering and cycle detection -/

/-- C1: for every acyclic definition set (scan mode: no explicit `models`
map), whenever the registry's definition of model `B` declares model `A`
as its base (via `base` or `options.base`) and `A` has a registry
definition, the instruction list the load pipeline produces places `A`'s
instruction strictly before `B`'s.  Chains of arbitrary depth are covered
since the statement applies to every base-declaring pair in the
registry. -/
theorem claim_C1_base_before_derived
    (fs : FSModel) (rootDir : String) (sources : List String)
    (modelDefinitions : Option (List ModelEntry)) (dataSouce : Option String)
    {aName bName : String} {eA eB : ModelEntry} {out : List ModelInstruction}
    (hA : (effectiveRegistry fs rootDir sources modelDefinitions).lookup
      aName = some eA)
    (hB : (effectiveRegistry fs rootDir sources modelDefinitions).lookup
      bName = some eB)
    (hbase : getBaseModelName (some eB.definition) = some aName)
    (hok : buildAllModelInstructions fs rootDir sources modelDefinitions
      none dataSouce = .ok out) :
    (out.map (·.name)).indexOf aName < (out.map (·.name)).indexOf bName := by
  have hok' : sortByInheritance
      ((addAllBaseModels (effectiveRegistry fs rootDir sources modelDefinitions)
        ((effectiveRegistry fs rootDir sources modelDefinitions).map Prod.fst)).map
        (createModelInstructions
          (effectiveRegistry fs rootDir sources modelDefinitions) none dataSouce)) =
      .ok out := hok
  have haN : aName ∈ addAllBaseModels
      (effectiveRegistry fs rootDir sources modelDefinitions)
      ((effectiveRegistry fs rootDir sources modelDefinitions).map Prod.fst) :=
    addAllBaseModels_mem _ _ _ (List.mem_map_of_mem Prod.fst (lookup_mem hA))
  have hbN : bName ∈ addAllBaseModels
      (effectiveRegistry fs rootDir sources modelDefinitions)
      ((effectiveRegistry fs rootDir sources modelDefinitions).map Prod.fst) :=
    addAllBaseModels_mem _ _ _ (List.mem_map_of_mem Prod.fst (lookup_mem hB))
  have hndI : (((addAllBaseModels
      (effectiveRegistry fs rootDir sources modelDefinitions)
      ((effectiveRegistry fs rootDir sources modelDefinitions).map Prod.fst)).map
      (createModelInstructions
        (effectiveRegistry fs rootDir sources modelDefinitions) none
        dataSouce)).map (·.name)).Nodup := by
    rw [instructions_names]
    exact addAllBaseModels_nodup _ _
  have hiA := List.mem_map_of_mem
    (createModelInstructions
      (effectiveRegistry fs rootDir sources modelDefinitions) none dataSouce) haN
  have hiB := List.mem_map_of_mem
    (createModelInstructions
      (effectiveRegistry fs rootDir sources modelDefinitions) none dataSouce) hbN
  have hbase' : getBaseModelName
      (createModelInstructions
        (effectiveRegistry fs rootDir sources modelDefinitions) none dataSouce
        bName).definition =
      some (createModelInstructions
        (effectiveRegistry fs rootDir sources modelDefinitions) none dataSouce
        aName).name := by
    show getBaseModelName
      (((effectiveRegistry fs rootDir sources modelDefinitions).lookup
        bName).map (·.definition)) = some aName
    rw [hB]
    exact hbase
  have hsub := sortByInheritance_ok_before hndI hok' hiA hiB hbase'
  have houtnd := sortByInheritance_ok_names_nodup hok'
  have hmapped : List.Sublist [aName, bName] (out.map (·.name)) := by
    have h := List.Sublist.map (fun i : ModelInstruction => i.name) hsub
    simpa [createModelInstructions_name] using h
  exact sublist_pair_indexOf_lt houtnd hmapped

/-- C2: in scan mode, whenever the registry's base declarations contain a
cycle (`c` extends ... extends `c`), the load pipeline's instruction
building raises an error (which the load call propagates); no instruction
list is produced. -/
theorem claim_C2_cycle_error
    (fs : FSModel) (rootDir : String) (sources : List String)
    (modelDefinitions : Option (List ModelEntry)) (dataSouce : Option String)
    {c : String} {l : List String}
    (hchain : List.Chain
      (fun x y => ∃ e,
        (effectiveRegistry fs rootDir sources modelDefinitions).lookup y =
          some e ∧ getBaseModelName (some e.definition) = some x)
      c (l ++ [c])) :
    ∃ msg, buildAllModelInstructions fs rootDir sources modelDefinitions
      none dataSouce = .error msg := by
  cases hok : buildAllModelInstructions fs rootDir sources modelDefinitions
      none dataSouce with
  | error e => exact ⟨e, rfl⟩
  | ok out =>
    exfalso
    have hok' : sortByInheritance
        ((addAllBaseModels
          (effectiveRegistry fs rootDir sources modelDefinitions)
          ((effectiveRegistry fs rootDir sources modelDefinitions).map
            Prod.fst)).map
          (createModelInstructions
            (effectiveRegistry fs rootDir sources modelDefinitions) none
            dataSouce)) = .ok out := hok
    rcases sortByInheritance_ok_sorted hok' with ⟨sorted, htp, -⟩
    have hchainN : List.Chain
        (fun n m => (n, m) ∈ inheritanceEdges
          ((addAllBaseModels
            (effectiveRegistry fs rootDir sources modelDefinitions)
            ((effectiveRegistry fs rootDir sources modelDefinitions).map
              Prod.fst)).map
            (createModelInstructions
              (effectiveRegistry fs rootDir sources modelDefinitions) none
              dataSouce)))
        (some c) ((l ++ [c]).map some) := by
      rw [List.chain_map]
      refine List.Chain.imp ?_ hchain
      intro x y hxy
      rcases hxy with ⟨e, hlook, hb⟩
      have hyN : y ∈ addAllBaseModels
          (effectiveRegistry fs rootDir sources modelDefinitions)
          ((effectiveRegistry fs rootDir sources modelDefinitions).map
            Prod.fst) :=
        addAllBaseModels_mem _ _ _
          (List.mem_map_of_mem Prod.fst (lookup_mem hlook))
      refine List.mem_map.mpr
        ⟨createModelInstructions
          (effectiveRegistry fs rootDir sources modelDefinitions) none
          dataSouce y,
        List.mem_map_of_mem _ hyN, ?_⟩
      show (getBaseModelName
        (((effectiveRegistry fs rootDir sources modelDefinitions).lookup
          y).map (·.definition)), some y) = (some x, some y)
      rw [hlook]
      simpa using hb
    rw [List.map_append] at hchainN
    rcases toposort_error_of_cycle hchainN with ⟨e, htp'⟩
    rw [htp] at htp'
    cases htp'

/-! ### Monad and field-access helpers -/

theorem except_bind_eq_ok {α β : Type} {x : Except String α}
    {f : α → Except String β} {b : β} (h : (x >>= f) = .ok b) :
    ∃ a, x = .ok a ∧ f a = .ok b := by
  cases x with
  | error e => simp [Bind.bind, Except.bind] at h
  | ok a => exact ⟨a, rfl, by simpa [Bind.bind, Except.bind] using h⟩

theorem getField_setField_self (fields : List (String × CVal)) (k : String)
    (v : CVal) : ((CVal.vObj fields).setField k v).getField k = v := by
  simp [CVal.setField, CVal.getField, setKey_lookup_self]

/-! ### Shared concrete fixtures for witnesses and counterexamples -/

/-- An empty parsed definition. -/
def emptyDefW : ModelDefinition :=
  { name := none, properties := none, base := none, sup := none,
    options := none, other := [] }

/-- A definition with just a name and an optional base. -/
def mkDefW (name : Option String) (base : Option String) : ModelDefinition :=
  { name := name, properties := none, base := base, sup := none,
    options := none, other := [] }

/-- A filesystem environment where nothing exists and nothing resolves. -/
def fsQuietW : FSModel :=
  { existsSync := fun _ => false
    readdir := fun _ => none
    statIsFile := fun _ => false
    requireResolve := fun _ => none
    loadJson := fun _ => emptyDefW
    requireVal := fun _ => .vUndefined
    requireExtensions := [".js", ".json", ".node"]
    globalPaths := ["/usr/lib/node"]
    nodeModulePaths := fun r => [r ++ "/node_modules"] }

/-- A line application with an empty model registry. -/
def lineEmptyW : LineT :=
  { registry := { models := [] }
    modelBuilderHasMixins := true
    dataSources := [] }

/-! ### C9: the path resolver never throws -/

/-- C9: in an environment where no filesystem path exists and no module
resolves, the path resolver returns `undefined` (it never throws) for
every root directory and path expression, and consequently the definition
scan simply skips every source and returns an empty registry instead of
aborting the load. -/
theorem claim_C9_resolver_returns_undefined (fs : FSModel)
    (hE : ∀ p, fs.existsSync p = false)
    (hR : ∀ p, fs.requireResolve p = none) :
    (∀ rootDir expr ropts, tryResolveAppPath fs rootDir expr ropts = none) ∧
    (∀ rootDir sources, findModelDefinitions fs rootDir sources = []) := by
  have h1 : ∀ rootDir expr ropts,
      tryResolveAppPath fs rootDir expr ropts = none := by
    intro rootDir expr ropts
    have hfilter : ∀ (cands : List ResolveCandidate),
        cands.filter (fun c => fs.existsSync c.path) = [] := by
      intro cands
      refine List.filter_eq_nil_iff.mpr ?_
      intro c _
      simp [hE]
    simp only [tryResolveAppPath, hE, hR, hfilter]
    split_ifs <;> simp_all
  refine ⟨h1, ?_⟩
  intro rootDir sources
  unfold findModelDefinitions
  have hstep : ∀ (acc : List (String × ModelEntry)) (src : String),
      findModelDefinitionsSource fs rootDir acc src = acc := by
    intro acc src
    unfold findModelDefinitionsSource
    rw [h1]
  have H : ∀ (srcs : List String) (acc : List (String × ModelEntry)),
      srcs.foldl (findModelDefinitionsSource fs rootDir) acc = acc := by
    intro srcs
    induction srcs with
    | nil => intro acc; rfl
    | cons s rest ih =>
      intro acc
      rw [List.foldl_cons, hstep]
      exact ih acc
  exact H sources []

/-- Witness for C9: a concrete environment where nothing resolves. -/
theorem claim_C9_resolver_returns_undefined_witness :
    (tryResolveAppPath fsQuietW "/app" "./models" { strict := false } = none) ∧
    (findModelDefinitions fsQuietW "/app"
      ["./models", "loopback/common/models"] = []) := by
  constructor
  · exact (claim_C9_resolver_returns_undefined fsQuietW (fun _ => rfl)
      (fun _ => rfl)).1 "/app" "./models" { strict := false }
  · exact (claim_C9_resolver_returns_undefined fsQuietW (fun _ => rfl)
      (fun _ => rfl)).2 "/app" ["./models", "loopback/common/models"]

/-! ### C10: the entry point mutates the options object -/

/-- C10: the load entry point mutates the caller-supplied options object:
after `load(line, root, options)` with a non-empty string root the same
options carry `root := root` and `dataSouce := previous truthy value or
'default'`; after `load(line, options)` with no root argument, `root`
defaults from the options' own `root` or the current working directory.
All other option fields are untouched. -/
theorem claim_C10_options_mutation (fs : FSModel) (line : LineT)
    (opts : LoadOptions) (root cwd : String) (hroot : root ≠ "") :
    (loadEntry fs line (.str root) (some opts) cwd).1 =
      { opts with
        root := some root
        dataSouce := some (jsOrD opts.dataSouce "default") } ∧
    (loadEntry fs line (.obj opts) none cwd).1 =
      { opts with
        root := some (jsOrD opts.root cwd)
        dataSouce := some (jsOrD opts.dataSouce "default") } := by
  constructor
  · simp [loadEntry, jsOrD, hroot]
  · rfl

/-- Witness for C10 at concrete inputs. -/
theorem claim_C10_options_mutation_witness :
    (loadEntry fsQuietW lineEmptyW (.str "/app")
      (some { dataSouce := some "db" }) "/cwd").1 =
      { root := some "/app", dataSouce := some "db" } := by
  obtain ⟨h, -⟩ := claim_C10_options_mutation fsQuietW lineEmptyW
    { dataSouce := some "db" } "/app" "/cwd" (by decide)
  simpa [jsOrD] using h

/-! ### C1 and C2 witnesses -/

/-- A models directory where `Manager` extends `Employee`, listed with
the derived model first. -/
def fsChainW : FSModel :=
  { existsSync := fun p => p = "/app/models"
    readdir := fun p =>
      if p = "/app/models" then some ["manager.json", "employee.json"]
      else none
    statIsFile := fun _ => true
    requireResolve := fun _ => none
    loadJson := fun p =>
      if p = "/app/models/manager.json" then
        mkDefW (some "Manager") (some "Employee")
      else if p = "/app/models/employee.json" then
        mkDefW (some "Employee") none
      else emptyDefW
    requireVal := fun _ => .vUndefined
    requireExtensions := [".js", ".json", ".node"]
    globalPaths := []
    nodeModulePaths := fun _ => [] }

/-- The scanner entry for `employee.json` in `fsChainW`. -/
def entryEmployeeW : ModelEntry :=
  { definition := mkDefW (some "Employee") none, sourceFile := none }

/-- The scanner entry for `manager.json` in `fsChainW`. -/
def entryManagerW : ModelEntry :=
  { definition := mkDefW (some "Manager") (some "Employee"),
    sourceFile := none }

/-- The instruction list the pipeline produces for `fsChainW`. -/
def outChainW : List ModelInstruction :=
  [{ name := "Employee"
     config := .vObj [("dataSource", .vStr "default")]
     definition := some (mkDefW (some "Employee") none)
     sourceFile := none },
   { name := "Manager"
     config := .vObj [("dataSource", .vStr "default")]
     definition := some (mkDefW (some "Manager") (some "Employee"))
     sourceFile := none }]

/-- Witness for C1: at the concrete `Employee`/`Manager` chain the
pipeline succeeds and places `Employee` strictly before `Manager`, even
though the file listing names `manager.json` first. -/
theorem claim_C1_base_before_derived_witness :
    ∃ out, buildAllModelInstructions fsChainW "/app" ["./models"] none none
        (some "default") = .ok out ∧
      (out.map (·.name)).indexOf "Employee" <
        (out.map (·.name)).indexOf "Manager" := by
  refine ⟨outChainW, by rfl, ?_⟩
  exact @claim_C1_base_before_derived fsChainW "/app" ["./models"] none
    (some "default") "Employee" "Manager" entryEmployeeW entryManagerW
    outChainW (by rfl) (by rfl) (by rfl) (by rfl)

/-- A models directory with a two-cycle: `A` extends `B` and `B`
extends `A`. -/
def fsCycW : FSModel :=
  { existsSync := fun p => p = "/app/models"
    readdir := fun p =>
      if p = "/app/models" then some ["a.json", "b.json"] else none
    statIsFile := fun _ => true
    requireResolve := fun _ => none
    loadJson := fun p =>
      if p = "/app/models/a.json" then mkDefW (some "A") (some "B")
      else if p = "/app/models/b.json" then mkDefW (some "B") (some "A")
      else emptyDefW
    requireVal := fun _ => .vUndefined
    requireExtensions := [".js", ".json", ".node"]
    globalPaths := []
    nodeModulePaths := fun _ => [] }

/-- Witness for C2: the concrete two-cycle makes instruction building
fail with an error. -/
theorem claim_C2_cycle_error_witness :
    ∃ msg, buildAllModelInstructions fsCycW "/app" ["./models"] none none
      (some "default") = .error msg :=
  @claim_C2_cycle_error fsCycW "/app" ["./models"] none (some "default")
    "A" ["B"]
    (List.Chain.cons
      ⟨{ definition := mkDefW (some "B") (some "A"), sourceFile := none },
        by rfl, by rfl⟩
      (List.Chain.cons
        ⟨{ definition := mkDefW (some "A") (some "B"), sourceFile := none },
          by rfl, by rfl⟩
        List.Chain.nil))

/-! ### C3: the unknown-model error message -/

/-- A registry holding only the built-in base models. -/
def regBaseW : Registry :=
  { models := [("Model", { modelName := "Model", settings := [] }),
               ("PersistedModel",
                 { modelName := "PersistedModel", settings := [] })] }

/-- C3 counterexample: for a configuration-only instruction naming the
unknown model `Foo`, the model pass fails with `Model not found: Foo` —
the message thrown by `registry.getModel` — which is not of the claimed
form `Cannot configure unknown model Foo`. -/
theorem claim_C3_counterexample :
    defineModels fsQuietW regBaseW
      [{ name := "Foo", config := .vNull, definition := none,
         sourceFile := none }] = .error ("Model not found: Foo") ∧
    "Model not found: Foo" ≠ "Cannot configure unknown model Foo" := by
  constructor
  · rfl
  · decide

/-- C3 amended: for an instruction that carries no `definition` and whose
model name is unknown, the model pass throws — but with `getModel`'s
message `Model not found: <name>`; the `Cannot configure unknown model`
throw inside `defineModels` is unreachable, because `registry.getModel`
throws instead of ever returning a missing (falsy) model. -/
theorem claim_C3_unknown_model_error (fs : FSModel) (registry : Registry)
    (name : String) (config : CVal) (sourceFile : Option String)
    (rest : List ModelInstruction)
    (habsent : registry.findModel name = none) :
    defineModels fs registry
      ({ name := name, config := config, definition := none,
         sourceFile := sourceFile } :: rest) =
      .error ("Model not found: " ++ name) := by
  unfold defineModels
  rw [List.foldlM_cons]
  have hstep : Registry.getModel registry name =
      .error ("Model not found: " ++ name) := by
    unfold Registry.getModel
    rw [habsent]
  dsimp only
  rw [hstep]
  rfl

/-- Witness for C3's amended statement at a concrete registry. -/
theorem claim_C3_unknown_model_error_witness :
    defineModels fsQuietW regBaseW
      [{ name := "Bar", config := .vUndefined, definition := none,
         sourceFile := none }] = .error ("Model not found: " ++ "Bar") :=
  claim_C3_unknown_model_error fsQuietW regBaseW "Bar" .vUndefined none []
    (by rfl)

/-! ### C6: the derived model name -/

/-- A models directory containing a nameless `customer-receipt.json`. -/
def fsNoNameW : FSModel :=
  { existsSync := fun p => p = "/app/models"
    readdir := fun p =>
      if p = "/app/models" then some ["customer-receipt.json"] else none
    statIsFile := fun _ => true
    requireResolve := fun _ => none
    loadJson := fun _ => emptyDefW
    requireVal := fun _ => .vUndefined
    requireExtensions := [".js", ".json", ".node"]
    globalPaths := []
    nodeModulePaths := fun _ => [] }

/-- C6 counterexample: the nameless schema file `customer-receipt.json`
is assigned the name `Customerreceipt` — lodash `capitalize` lower-cases
everything after the first character of the camel-cased basename — not
the pascal-cased `CustomerReceipt` the claim states. -/
theorem claim_C6_counterexample :
    (loadModelDefinition fsNoNameW "/app/models/customer-receipt.json"
      ["customer-receipt.json"]).definition.name = some "Customerreceipt" ∧
    "Customerreceipt" ≠ "CustomerReceipt" := by
  constructor
  · rfl
  · decide

/-- C6 amended: a scanned schema file whose parsed definition has no
`name` is assigned `capitalize(camelCase(basename))` — the camel-cased
basename with its first character upper-cased and all remaining
characters lower-cased.  A single-word basename like `foo` still yields
`Foo`, but the multi-word `customer-receipt` yields `Customerreceipt`,
not `CustomerReceipt`. -/
theorem claim_C6_name_derivation (fs : FSModel) (jsonFile : String)
    (allFiles : List String) (hname : (fs.loadJson jsonFile).name = none) :
    (loadModelDefinition fs jsonFile allFiles).definition.name =
      some (lodashCapitalize (lodashCamelCase
        (pathBasenameExt jsonFile (pathExtname jsonFile)))) ∧
    lodashCapitalize (lodashCamelCase "foo") = "Foo" ∧
    lodashCapitalize (lodashCamelCase "customer-receipt") =
      "Customerreceipt" := by
  refine ⟨?_, by rfl, by rfl⟩
  unfold loadModelDefinition
  dsimp only
  rw [hname]
  rfl

/-- Witness for C6's amended statement at the concrete nameless file. -/
theorem claim_C6_name_derivation_witness :
    (loadModelDefinition fsNoNameW "/app/models/customer-receipt.json"
      ["customer-receipt.json"]).definition.name =
      some (lodashCapitalize (lodashCamelCase
        (pathBasenameExt "/app/models/customer-receipt.json"
          (pathExtname "/app/models/customer-receipt.json")))) ∧
    lodashCapitalize (lodashCamelCase "foo") = "Foo" ∧
    lodashCapitalize (lodashCamelCase "customer-receipt") =
      "Customerreceipt" :=
  claim_C6_name_derivation fsNoNameW "/app/models/customer-receipt.json"
    ["customer-receipt.json"] (by rfl)

/-! ### C8: structural keys through the options channel -/

theorem settingsMergeStep_pos (modelName : String)
    (st : List (String × CVal)) (ws : List String) {kv : String × CVal}
    (hk : excludedSettingKeys.contains kv.1) :
    settingsMergeStep modelName (st, ws) kv =
      (st, ws ++ ["Property `" ++ kv.1 ++ "` cannot be reconfigured for `" ++
        modelName ++ "`"]) := by
  unfold settingsMergeStep
  rw [if_pos hk]

theorem settingsMergeStep_neg (modelName : String)
    (st : List (String × CVal)) (ws : List String) {kv : String × CVal}
    (hk : ¬ excludedSettingKeys.contains kv.1) :
    settingsMergeStep modelName (st, ws) kv = (setKey st kv.1 kv.2, ws) := by
  unfold settingsMergeStep
  rw [if_neg hk]

theorem settingsMergeFold_warns_mono (modelName : String) :
    ∀ (optFields : List (String × CVal)) (st : List (String × CVal))
      (ws : List String) (x : String), x ∈ ws →
      x ∈ (optFields.foldl (settingsMergeStep modelName) (st, ws)).2 := by
  intro optFields
  induction optFields with
  | nil => intro st ws x hx; exact hx
  | cons kv rest ih =>
    intro st ws x hx
    rw [List.foldl_cons]
    by_cases hk : excludedSettingKeys.contains kv.1
    · rw [settingsMergeStep_pos modelName st ws hk]
      exact ih _ _ x (List.mem_append_left _ hx)
    · rw [settingsMergeStep_neg modelName st ws hk]
      exact ih _ _ x hx

theorem settingsMergeFold_excluded (modelName : String) :
    ∀ (optFields : List (String × CVal)) (st : List (String × CVal))
      (ws : List String) (p : String), excludedSettingKeys.contains p →
      ((optFields.foldl (settingsMergeStep modelName) (st, ws)).1).lookup p =
        st.lookup p := by
  intro optFields
  induction optFields with
  | nil => intro st ws p _; rfl
  | cons kv rest ih =>
    intro st ws p hp
    rw [List.foldl_cons]
    by_cases hk : excludedSettingKeys.contains kv.1
    · rw [settingsMergeStep_pos modelName st ws hk]
      exact ih _ _ p hp
    · rw [settingsMergeStep_neg modelName st ws hk]
      rw [ih _ _ p hp]
      exact setKey_lookup_ne st kv.1 p kv.2 (fun h => hk (h ▸ hp))

theorem settingsMergeFold_untouched (modelName : String) :
    ∀ (optFields : List (String × CVal)) (st : List (String × CVal))
      (ws : List String) (p : String), (∀ q ∈ optFields, q.1 ≠ p) →
      ((optFields.foldl (settingsMergeStep modelName) (st, ws)).1).lookup p =
        st.lookup p := by
  intro optFields
  induction optFields with
  | nil => intro st ws p _; rfl
  | cons kv rest ih =>
    intro st ws p hq
    rw [List.foldl_cons]
    have hrest : ∀ q ∈ rest, q.1 ≠ p := fun q hqr =>
      hq q (List.mem_cons_of_mem _ hqr)
    by_cases hk : excludedSettingKeys.contains kv.1
    · rw [settingsMergeStep_pos modelName st ws hk]
      exact ih _ _ p hrest
    · rw [settingsMergeStep_neg modelName st ws hk]
      rw [ih _ _ p hrest]
      exact setKey_lookup_ne st kv.1 p kv.2 (Ne.symm (hq kv (by simp)))

theorem settingsMergeFold_set (modelName : String) :
    ∀ (optFields : List (String × CVal)) (st : List (String × CVal))
      (ws : List String) (p : String) (v : CVal),
      (optFields.map Prod.fst).Nodup → (p, v) ∈ optFields →
      ¬ excludedSettingKeys.contains p →
      ((optFields.foldl (settingsMergeStep modelName) (st, ws)).1).lookup p =
        some v := by
  intro optFields
  induction optFields with
  | nil => intro st ws p v _ hmem _; cases hmem
  | cons kv rest ih =>
    intro st ws p v hnd hmem hnp
    rw [List.map_cons] at hnd
    have hnd' := List.nodup_cons.mp hnd
    rw [List.foldl_cons]
    rcases List.mem_cons.mp hmem with heq | hmem'
    · have hk1 : kv.1 = p := by rw [← heq]
      have hrest : ∀ q ∈ rest, q.1 ≠ p := by
        intro q hqr hcontra
        exact hnd'.1 (hk1 ▸ hcontra ▸ List.mem_map_of_mem Prod.fst hqr)
      rw [settingsMergeStep_neg modelName st ws (by rw [hk1]; exact hnp)]
      rw [settingsMergeFold_untouched modelName rest _ _ p hrest]
      rw [← heq]
      exact setKey_lookup_self st p v
    · have hk1 : kv.1 ≠ p := by
        intro hcontra
        exact hnd'.1 (hcontra ▸ List.mem_map_of_mem Prod.fst hmem')
      by_cases hk : excludedSettingKeys.contains kv.1
      · rw [settingsMergeStep_pos modelName st ws hk]
        exact ih _ _ p v hnd'.2 hmem' hnp
      · rw [settingsMergeStep_neg modelName st ws hk]
        exact ih _ _ p v hnd'.2 hmem' hnp

theorem settingsMergeFold_warn (modelName : String) :
    ∀ (optFields : List (String × CVal)) (st : List (String × CVal))
      (ws : List String) (p : String) (v : CVal),
      (p, v) ∈ optFields → excludedSettingKeys.contains p →
      ("Property `" ++ p ++ "` cannot be reconfigured for `" ++ modelName ++
        "`") ∈ (optFields.foldl (settingsMergeStep modelName) (st, ws)).2 := by
  intro optFields
  induction optFields with
  | nil => intro st ws p v hmem _; cases hmem
  | cons kv rest ih =>
    intro st ws p v hmem hp
    rw [List.foldl_cons]
    rcases List.mem_cons.mp hmem with heq | hmem'
    · have hk1 : kv.1 = p := by rw [← heq]
      rw [settingsMergeStep_pos modelName st ws (by rw [hk1]; exact hp)]
      refine settingsMergeFold_warns_mono modelName rest _ _ _ ?_
      rw [hk1]
      simp
    · by_cases hk : excludedSettingKeys.contains kv.1
      · rw [settingsMergeStep_pos modelName st ws hk]
        exact ih _ _ p v hmem' hp
      · rw [settingsMergeStep_neg modelName st ws hk]
        exact ih _ _ p v hmem' hp

/-- C8: when a model is configured with an `options` object (and
`dataSource: null`), the call succeeds; every attempt to set one of the
structural keys `base`/`super`/`relations`/`acls`/`dataSource` through
the options channel leaves that setting unchanged and logs a
`Property .. cannot be reconfigured` warning, while every other `options`
key is copied into the model's settings. -/
theorem claim_C8_options_structural_keys (ModelCtor : ModelHandle)
    (opts : List (String × CVal)) (hnd : (opts.map Prod.fst).Nodup) :
    ∃ m' warns,
      registryConfigureModel ModelCtor
        (.vObj [("options", .vObj opts), ("dataSource", .vNull)]) =
        .ok (m', warns, none) ∧
      (∀ p v, (p, v) ∈ opts → ¬ excludedSettingKeys.contains p →
        m'.settings.lookup p = some v) ∧
      (∀ p v, (p, v) ∈ opts → excludedSettingKeys.contains p →
        m'.settings.lookup p = ModelCtor.settings.lookup p ∧
        ("Property `" ++ p ++ "` cannot be reconfigured for `" ++
          ModelCtor.modelName ++ "`") ∈ warns) := by
  refine ⟨{ ModelCtor with settings := (opts.foldl
      (settingsMergeStep ModelCtor.modelName) (ModelCtor.settings, [])).1 },
    (opts.foldl (settingsMergeStep ModelCtor.modelName)
      (ModelCtor.settings, [])).2, ?_, ?_, ?_⟩
  · rfl
  · intro p v hpv hnp
    exact settingsMergeFold_set ModelCtor.modelName opts _ _ p v hnd hpv hnp
  · intro p v hpv hp
    exact ⟨settingsMergeFold_excluded ModelCtor.modelName opts _ _ p hp,
      settingsMergeFold_warn ModelCtor.modelName opts _ _ p v hpv hp⟩

/-- A concrete model with existing settings. -/
def modelCtorW : ModelHandle :=
  { modelName := "Widget"
    settings := [("base", .vStr "PersistedModel"),
                 ("idInjection", .vBool true)] }

/-- A concrete options channel attempting a structural and an ordinary
key. -/
def optsW : List (String × CVal) :=
  [("base", .vStr "Hacked"), ("strict", .vBool true)]

/-- Witness for C8 at a concrete model and options object. -/
theorem claim_C8_options_structural_keys_witness :
    ∃ m' warns,
      registryConfigureModel modelCtorW
        (.vObj [("options", .vObj optsW), ("dataSource", .vNull)]) =
        .ok (m', warns, none) ∧
      (∀ p v, (p, v) ∈ optsW → ¬ excludedSettingKeys.contains p →
        m'.settings.lookup p = some v) ∧
      (∀ p v, (p, v) ∈ optsW → excludedSettingKeys.contains p →
        m'.settings.lookup p = modelCtorW.settings.lookup p ∧
        ("Property `" ++ p ++ "` cannot be reconfigured for `" ++
          modelCtorW.modelName ++ "`") ∈ warns) :=
  claim_C8_options_structural_keys modelCtorW optsW (by decide)

/-! ### C5: falsy configs are skipped entirely -/

/-- A line whose registry already holds the model `Known`. -/
def lineKnownW : LineT :=
  { registry :=
      { models := [("Known", { modelName := "Known", settings := [] })] }
    modelBuilderHasMixins := true
    dataSources := [("default", "default")] }

/-- C5 counterexample: an instruction whose source explicitly set its
config to `null` (a present, non-`undefined` value) is not passed to
`line.model` at all — the attach loop's `if (!data.config) return` skips
every falsy config — contradicting the claim that it still reaches the
configuration step with only the attachment skipped. -/
theorem claim_C5_counterexample :
    Except.map (fun s => s.modelCalls)
      (setupModels fsQuietW lineKnownW
        { models := [{ name := "Known", config := .vNull,
                       definition := none, sourceFile := none }] }) =
      .ok [] ∧
    CVal.vNull ≠ CVal.vUndefined := by
  constructor
  · rfl
  · intro h; cases h

/-- C5 amended: only instructions whose config value is truthy are passed
to `line.model` — configs that are absent, `null`, or `false` are all
skipped entirely by `if (!data.config) return`; separately, within a
config that is passed, a `dataSource` of `null` merely skips the
datasource attachment: the configuration call still runs and succeeds
with no datasource attached. -/
theorem claim_C5_truthy_config_only :
    (∀ (fs : FSModel) (line : LineT) (instructions : Instructions)
      (s : SetupResult) (dm : DefineModelsResult),
      setupModels fs line instructions = .ok s →
      defineModels fs line.registry instructions.models = .ok dm →
      s.modelCalls = (dm.pairs.filter fun p => p.1.config.truthy).map
        (fun p => (p.2, p.1.config))) ∧
    (∀ (line : LineT) (ModelCtor : ModelHandle) (config : CVal),
      config.getField "dataSource" = .vNull →
      ∃ m' warns, lineConfigureModel line ModelCtor config =
        .ok (m', warns, none)) := by
  constructor
  · intro fs line instructions s dm hs hdm
    unfold setupModels at hs
    rcases except_bind_eq_ok hs with ⟨dm', hdm', hrest⟩
    rw [hdm] at hdm'
    injection hdm' with hdm'
    subst hdm'
    dsimp only at hrest
    rcases except_bind_eq_ok hrest with ⟨conf, hconf, hpure⟩
    have hs' : s = { registry := dm.registry
                     mixinDefines := defineMixins fs line instructions
                     pairs := dm.pairs
                     modelCalls := (dm.pairs.filter fun p =>
                       p.1.config.truthy).map (fun p => (p.2, p.1.config))
                     configured := conf } := by
      have := hpure
      simp only [pure, Except.pure] at this
      injection this with h
      exact h.symm
    rw [hs']
  · intro line ModelCtor config hds
    have hobj : ∃ fields, config = .vObj fields := by
      cases config with
      | vObj fields => exact ⟨fields, rfl⟩
      | vUndefined => cases hds
      | vNull => cases hds
      | vBool b => cases hds
      | vNum n => cases hds
      | vStr s => cases hds
      | vArr l => cases hds
      | vDataSource d => cases hds
      | vFunc b => cases hds
    rcases hobj with ⟨fields, rfl⟩
    simp only [lineConfigureModel, hds, CVal.truthy, Bool.false_and,
      Bool.false_eq_true, if_false, registryConfigureModel,
      getField_setField_self]
    exact ⟨_, _, rfl⟩

/-- C5 witness: at the empty instruction bundle the computed `modelCalls`
list matches the truthy filter, and a `null` `dataSource` config still
configures successfully without attaching. -/
theorem claim_C5_truthy_config_only_witness :
    (SetupResult.modelCalls
      { registry := lineKnownW.registry
        mixinDefines := []
        pairs := []
        modelCalls := []
        configured := [] } =
      ((DefineModelsResult.pairs
        { registry := lineKnownW.registry
          pairs := []
          customized := [] }).filter fun p => p.1.config.truthy).map
        (fun p => (p.2, p.1.config))) ∧
    (∃ m' warns,
      lineConfigureModel lineKnownW { modelName := "K", settings := [] }
        (.vObj [("dataSource", .vNull)]) = .ok (m', warns, none)) :=
  ⟨claim_C5_truthy_config_only.1 fsQuietW lineKnownW { models := [] } _ _
      (by rfl) (by rfl),
    claim_C5_truthy_config_only.2 lineKnownW
      { modelName := "K", settings := [] }
      (.vObj [("dataSource", .vNull)]) (by rfl)⟩

/-! ### C7: caller-supplied mixins are never wired in -/

/-- A quiet filesystem that additionally loads a callable value from
`/app/mixins/ts.js`. -/
def fsMixW : FSModel :=
  { fsQuietW with requireVal := fun p =>
      if p = "/app/mixins/ts.js" then .vFunc false else .vUndefined }

theorem setupModels_mixinDefines_nil (fs : FSModel) (line : LineT)
    (ms : List ModelInstruction) (s : SetupResult)
    (h : setupModels fs line { models := ms } = .ok s) :
    s.mixinDefines = [] := by
  unfold setupModels at h
  rcases except_bind_eq_ok h with ⟨dm, hdm, hrest⟩
  dsimp only at hrest
  rcases except_bind_eq_ok hrest with ⟨conf, hconf, hpure⟩
  simp only [pure, Except.pure] at hpure
  injection hpure with h'
  rw [← h']
  simp [defineMixins, Bool.or_true]

theorem defineMixins_foldl (fs : FSModel) (l : List MixinDecl)
    (acc : List (String × CVal)) :
    l.foldl (fun acc obj =>
        let mixin := fs.requireVal obj.sourceFile
        if mixinAccepted mixin then acc ++ [(obj.name, mixin)] else acc)
      acc =
      acc ++ (l.filter fun d =>
        mixinAccepted (fs.requireVal d.sourceFile)).map
        (fun d => (d.name, fs.requireVal d.sourceFile)) := by
  induction l generalizing acc with
  | nil => simp
  | cons d rest ih =>
    rw [List.foldl_cons]
    dsimp only
    by_cases h : mixinAccepted (fs.requireVal d.sourceFile) = true
    · rw [if_pos h, ih, List.filter_cons, if_pos h, List.map_cons]
      simp
    · rw [if_neg h, ih, List.filter_cons, if_neg h]

/-- C7 counterexample: a load call supplying a `mixins` option whose
source loads to a callable (accepted) value still produces no mixin
registrations — the entry hands `setupModels` the bundle
`{models: instructions}` and never forwards `options.mixins` — even
though `defineMixins`, handed that list directly, would register it. -/
theorem claim_C7_counterexample :
    Except.map (fun r => r.setup.mixinDefines)
      (loadEntry fsMixW lineEmptyW RootArg.null
        (some { mixins := some [{ name := "ts"
                                  sourceFile := "/app/mixins/ts.js" }] })
        "/app").2 = .ok [] ∧
    defineMixins fsMixW lineEmptyW
      { models := []
        mixins := some [{ name := "ts"
                          sourceFile := "/app/mixins/ts.js" }] } =
      [("ts", .vFunc false)] := by
  constructor <;> rfl

/-- C7 amended: the load entry point registers no mixins at all — the
instruction bundle it builds never carries a `mixins` key, so
`options.mixins` is ignored; the (unreached) `defineMixins` helper,
handed a mixin list directly on a builder with a mixin registry,
registers exactly the entries whose loaded value is callable or
subclass-shaped, in declaration order. -/
theorem claim_C7_mixins_ignored :
    (∀ (fs : FSModel) (line : LineT) (ra : RootArg)
      (opts : Option LoadOptions) (cwd : String) (r : LoadResult),
      (loadEntry fs line ra opts cwd).2 = .ok r →
      r.setup.mixinDefines = []) ∧
    (∀ (fs : FSModel) (line : LineT) (ms : List ModelInstruction)
      (l : List MixinDecl), line.modelBuilderHasMixins = true →
      defineMixins fs line { models := ms
                             mixins := some l } =
        (l.filter fun d =>
          mixinAccepted (fs.requireVal d.sourceFile)).map
          (fun d => (d.name, fs.requireVal d.sourceFile))) := by
  constructor
  · intro fs line ra opts cwd r h
    have tail : ∀ (rootStr : String) (options : LoadOptions),
        (do
          let instrs ← loadModelInstructions fs rootStr options
          let setup ← setupModels fs line { models := instrs }
          pure { instructions := instrs, setup := setup }
          : Except String LoadResult) = .ok r →
        r.setup.mixinDefines = [] := by
      intro rootStr options htl
      rcases except_bind_eq_ok htl with ⟨instrs, hi, hrest⟩
      rcases except_bind_eq_ok hrest with ⟨setup, hsetup, hpure⟩
      simp only [pure, Except.pure] at hpure
      injection hpure with h'
      rw [← h']
      exact setupModels_mixinDefines_nil fs line instrs setup hsetup
    cases ra with
    | str s => exact tail _ _ h
    | obj o =>
      cases opts with
      | some o' => exact tail _ _ h
      | none => exact tail _ _ h
    | null =>
      cases opts with
      | some o' => exact tail _ _ h
      | none => exact tail _ _ h
  · intro fs line ms l hmb
    cases l with
    | nil => simp [defineMixins]
    | cons d rest =>
      simp only [defineMixins, Option.getD_some, hmb, Bool.not_true,
        Bool.false_or, List.isEmpty_cons, Bool.false_eq_true, if_false]
      rw [defineMixins_foldl]
      simp

/-- C7 witness: the amended theorem at a concrete load call (accepted
mixin supplied, none registered) and a concrete direct `defineMixins`
call (the accepted mixin registered). -/
theorem claim_C7_mixins_ignored_witness :
    (LoadResult.setup
      { instructions := []
        setup := { registry := { models := [] }
                   mixinDefines := []
                   pairs := []
                   modelCalls := []
                   configured := [] } }).mixinDefines = [] ∧
    defineMixins fsMixW lineEmptyW
      { models := []
        mixins := some [{ name := "mx"
                          sourceFile := "/app/mixins/ts.js" }] } =
      (([{ name := "mx", sourceFile := "/app/mixins/ts.js" }] :
          List MixinDecl).filter fun d =>
        mixinAccepted (fsMixW.requireVal d.sourceFile)).map
        (fun d => (d.name, fsMixW.requireVal d.sourceFile)) :=
  ⟨claim_C7_mixins_ignored.1 fsMixW lineEmptyW RootArg.null
      (some { mixins := some [{ name := "mx"
                                sourceFile := "/app/mixins/ts.js" }] })
      "/app" _ (by rfl),
    claim_C7_mixins_ignored.2 fsMixW lineEmptyW []
      [{ name := "mx", sourceFile := "/app/mixins/ts.js" }] (by rfl)⟩

/-! ### C4: only the misspelled `dataSouce` option is read -/

/-- A models directory containing a single nameless `customer.json`. -/
def fsCustW : FSModel :=
  { existsSync := fun p => p = "/app/models"
    readdir := fun p =>
      if p = "/app/models" then some ["customer.json"] else none
    statIsFile := fun _ => false
    requireResolve := fun _ => none
    loadJson := fun _ => emptyDefW
    requireVal := fun _ => .vUndefined
    requireExtensions := [".js", ".json", ".node"]
    globalPaths := []
    nodeModulePaths := fun _ => [] }

/-- A line with the built-in `PersistedModel` and a `default`
datasource. -/
def lineDsW : LineT :=
  { registry := { models := [("PersistedModel",
      { modelName := "PersistedModel", settings := [] })] }
    modelBuilderHasMixins := true
    dataSources := [("default", "default")] }

/-- The instruction the `customer.json` scan produces. -/
def instrCustW : ModelInstruction :=
  { name := "Customer"
    config := .vObj [("dataSource", .vStr "default")]
    definition := some { emptyDefW with name := some "Customer" }
    sourceFile := none }

/-- C4 counterexample: a load call that supplies the correctly-spelled
`dataSource := "db"` option still attaches the discovered model to
`default` — the pipeline reads only the misspelled `dataSouce` key, and
with that key absent the default name `default` is used. -/
theorem claim_C4_counterexample :
    Except.map (fun r => r.instructions.map (fun i => i.config))
      (loadEntry fsCustW lineDsW RootArg.null
        (some { dataSource := some "db" }) "/app").2 =
      .ok [.vObj [("dataSource", .vStr "default")]] ∧
    CVal.vStr "default" ≠ CVal.vStr "db" := by
  constructor
  · rfl
  · intro h
    injection h with h
    exact absurd h (by decide)

/-- C4 amended: the load entry point honors only the misspelled
`dataSouce` option.  The correctly-spelled `dataSource` option has no
effect on the pipeline outcome; an absent `dataSouce` behaves exactly
like `dataSouce := "default"`; and every model discovered without an
explicit per-model config receives the config
`{dataSource: <options.dataSouce>}`. -/
theorem claim_C4_misspelled_option_only :
    (∀ (fs : FSModel) (line : LineT) (ra : RootArg) (opts : LoadOptions)
      (v : Option String) (cwd : String),
      (loadEntry fs line ra (some { opts with dataSource := v }) cwd).2 =
        (loadEntry fs line ra (some opts) cwd).2) ∧
    (∀ (fs : FSModel) (line : LineT) (opts : LoadOptions) (cwd : String),
      (loadEntry fs line RootArg.null
          (some { opts with dataSouce := none }) cwd).2 =
        (loadEntry fs line RootArg.null
          (some { opts with dataSouce := some "default" }) cwd).2) ∧
    (∀ (fs : FSModel) (root : String) (options : LoadOptions)
      (out : List ModelInstruction),
      options.models = none →
      loadModelInstructions fs root options = .ok out →
      ∀ i ∈ out, i.config = .vObj [("dataSource",
        match options.dataSouce with
        | some s => .vStr s
        | none => .vUndefined)]) := by
  refine ⟨?_, ?_, ?_⟩
  · intro fs line ra opts v cwd
    cases ra <;> rfl
  · intro fs line opts cwd
    rfl
  · intro fs root options out hm hok i hi
    unfold loadModelInstructions at hok
    have hsub := sortByInheritance_ok_subset hok i hi
    rw [hm] at hsub
    rcases List.mem_map.mp hsub with ⟨name, -, heq⟩
    rw [← heq]
    rfl

/-- C4 witness: the amended theorem at concrete inputs — a `dataSource`
override that changes nothing, an absent `dataSouce` equal to the
explicit `"default"`, and the scanned `Customer` instruction's default
config. -/
theorem claim_C4_misspelled_option_only_witness :
    ((loadEntry fsQuietW lineEmptyW RootArg.null
        (some { ({} : LoadOptions) with dataSource := some "db" }) "/r").2 =
      (loadEntry fsQuietW lineEmptyW RootArg.null
        (some ({} : LoadOptions)) "/r").2) ∧
    ((loadEntry fsQuietW lineEmptyW RootArg.null
        (some { ({} : LoadOptions) with dataSouce := none }) "/r").2 =
      (loadEntry fsQuietW lineEmptyW RootArg.null
        (some { ({} : LoadOptions) with dataSouce := some "default" })
        "/r").2) ∧
    instrCustW.config = .vObj [("dataSource",
      match ({ dataSouce := some "default" } : LoadOptions).dataSouce with
      | some s => .vStr s
      | none => .vUndefined)] :=
  ⟨claim_C4_misspelled_option_only.1 fsQuietW lineEmptyW RootArg.null {}
      (some "db") "/r",
    claim_C4_misspelled_option_only.2.1 fsQuietW lineEmptyW {} "/r",
    claim_C4_misspelled_option_only.2.2 fsCustW "/app"
      { dataSouce := some "default" } [instrCustW] (by rfl) (by rfl)
      instrCustW (List.mem_cons_self instrCustW [])⟩

end Loopline
